import Mathlib

/-! RLWM task engine (`rlwm-task.js`): shallow embedding and verified properties.

The JavaScript program keeps one global `state` object, draws random numbers with
`Math.random()` and advances through `setTimeout` continuations and user input handlers.

Modelling decisions, each visible in the definitions below.

* A call of `Math.random()` yields a number `r` with `0 ≤ r < 1`.  A draw is a fraction
  `num / den` with `num < den`, and `Math.floor(r * n)` is taken as the floor
  `num * n / den` of the exact product.  The program floors the product rounded to a
  double, which for some `r` is the next integer (for `r = 0.6666666666666666` and `n = 3`
  the program gets 2 where the exact floor is 1); its value still lies in `0 .. n-1`, and
  every value in `0 .. n-1` is the exact floor for some draw.  The theorems therefore
  speak about all streams of draws, or about streams of dyadic draws (`1/2`, `3/4`, `n/8`)
  whose products are exact; none states which value a particular non-dyadic `r` gives.
* The random source is a stream `rng : Nat → Draw`; a counter `k` says how many draws have
  been consumed, and every function that draws returns the advanced counter.
* Arrays are lists; `a[i]` outside the bounds (`undefined`) is `none`.
* Reading a property of `undefined` throws a `TypeError`; a handler that throws leaves
  the global state as it was mutated so far (`Outcome.typeError`).
* Set sizes, indices, counters and actions are natural numbers.
* Pending `setTimeout` continuations are kept in the engine (`Engine.timers`).  Delays are
  not modelled: in the event relation any pending timer may run next, and the run in the
  normal order always has exactly one pending timer to run.
* Of the page, the engine keeps what `trial-area` displays (`Engine.trialArea`): it decides
  whether the three action buttons or the button of the inter-block screen exist.
* The quotient `a / b` of two counters is the double nearest to the exact quotient, ties to
  even (`doubleQuotient`), kept as the rational it denotes (`JSNum.fin`); `0 / 0` is `NaN`.
* The configuration-editing functions act on `Config`; an assignment past the end of
  `config.setSizes`, which no button of the configuration screen issues, is not represented.
* `swapLeavesNoRepeat` and `specSwapIndex` state the swap position in the words of the
  specification, to be compared with `swapAllowed` and `findSwapIndex` of the source.
-/

namespace RLWM

/-! ## Random draws -/

/-- One result `r = num / den` of `Math.random()`, with `0 ≤ r < 1`. -/
structure Draw where
  num : Nat
  den : Nat
  lt : num < den

/-- The value `Math.floor(r * n)` for a draw `r` and a natural number `n`, as the floor of
the exact product (see the note on draws above). -/
def Draw.floorMul (r : Draw) (n : Nat) : Nat := r.num * n / r.den

/-- The stream of results of successive `Math.random()` calls. -/
abbrev Rng := Nat → Draw

/-! ## Data model -/

/-- An element of `block.sequence`: `{stimulusIndex, stimulus, iteration}`. -/
structure Trial where
  stimulusIndex : Nat
  stimulus : String
  iteration : Nat
  deriving DecidableEq, Repr

/-- The constant `config.stimulusCategories`. -/
def stimulusCategories : List (List String) :=
  [ ["🐱", "🐶", "🐭", "🐹", "🐰", "🦊"],
    ["🍎", "🍊", "🍋", "🍌", "🍇", "🍓"],
    ["⚽", "🏀", "🎾", "🏈", "⚾", "🎱"],
    ["🚗", "🚕", "🚙", "🚌", "🚎", "🏎️"],
    ["🌸", "🌺", "🌻", "🌷", "🌹", "🏵️"],
    ["⭐", "🌟", "✨", "💫", "🌠", "☄️"] ]

/-- The editable part of `config`: `setSizes` and `iterationsPerStimulus`. -/
structure Config where
  setSizes : List Nat
  iterationsPerStimulus : Nat
  deriving DecidableEq, Repr

/-! ## Stimulus assignment -/

/-- Source function `selectStimuli(blockIndex, setSize)`: `category.slice(0, setSize)` of the
category at `blockIndex % config.stimulusCategories.length`. -/
def selectStimuli (blockIndex setSize : Nat) : List String :=
  let category := stimulusCategories.getD (blockIndex % stimulusCategories.length) []
  category.take setSize

/-- Source function `generateCorrectActions(setSize)`: key `i` of the object `actions` is
position `i` of the list; iteration `i` of the loop uses the draw number `k + i` and stores
`Math.floor(Math.random() * 3) + 1`.  Returns the mapping and the advanced counter. -/
def generateCorrectActions (rng : Rng) (k setSize : Nat) : List Nat × Nat :=
  ((List.range setSize).map (fun i => (rng (k + i)).floorMul 3 + 1), k + setSize)

/-! ## Sequence generation -/

/-- The base sequence of `generateTrialSequence`: for `iter = 0 .. iterations-1` and
`i = 0 .. stimuli.length-1`, in this order, the trial
`{stimulusIndex: i, stimulus: stimuli[i], iteration: iter + 1}`. -/
def baseSequence (stimuli : List String) (iterations : Nat) : List Trial :=
  (List.range iterations).flatMap (fun iter =>
    stimuli.enum.map (fun p =>
      { stimulusIndex := p.1, stimulus := p.2, iteration := iter + 1 }))

/-- The destructuring swap `[a[i], a[j]] = [a[j], a[i]]` for indices inside the array
(the program never swaps outside the bounds). -/
def swap {α : Type} (xs : List α) (i j : Nat) : List α :=
  match xs[i]?, xs[j]? with
  | some a, some b => (xs.set i b).set j a
  | _, _ => xs

/-- The Fisher-Yates loop `for (i = start; i > 0; i--)`:
`j = Math.floor(Math.random() * (i + 1))`, then swap positions `i` and `j`.  Returns the
array and the advanced draw counter. -/
def fisherYates (rng : Rng) : Nat → Nat → List Trial → List Trial × Nat
  | 0, k, shuffled => (shuffled, k)
  | i + 1, k, shuffled =>
      let j := (rng k).floorMul (i + 2)
      fisherYates rng i (k + 1) (swap shuffled (i + 1) j)

/-- The value `shuffled[i].stimulusIndex` (`none` outside the array). -/
def stimAt (shuffled : List Trial) (i : Nat) : Option Nat :=
  (shuffled[i]?).map (fun t => t.stimulusIndex)

/-- The test of the inner search loop for a candidate `j`: none of `wouldCreateRepBefore`,
`wouldCreateRepAfter`, `wouldCreateRepAtI`, `wouldCreateRepAtIPlus2` holds.  The source's
`j < shuffled.length - 1` is written `j + 1 < shuffled.length`. -/
def swapAllowed (shuffled : List Trial) (i j : Nat) : Bool :=
  let wouldCreateRepBefore :=
    decide (j > 0) && (stimAt shuffled (j - 1) == stimAt shuffled (i + 1))
  let wouldCreateRepAfter :=
    decide (j + 1 < shuffled.length) && (stimAt shuffled (j + 1) == stimAt shuffled (i + 1))
  let wouldCreateRepAtI := stimAt shuffled j == stimAt shuffled i
  let wouldCreateRepAtIPlus2 :=
    decide (i + 2 < shuffled.length) && (stimAt shuffled j == stimAt shuffled (i + 2))
  !wouldCreateRepBefore && !wouldCreateRepAfter && !wouldCreateRepAtI && !wouldCreateRepAtIPlus2

/-- The search `for (j = i + 2; j < shuffled.length; j++)` with `break` at the first allowed
`j`; `none` is `swapIndex === -1`. -/
def findSwapIndex (shuffled : List Trial) (i : Nat) : Option Nat :=
  (List.range' (i + 2) (shuffled.length - (i + 2))).find? (fun j => swapAllowed shuffled i j)

/-- The scan `for (i = ...; i < shuffled.length - 1; i++)` of one repair pass, with `n`
iterations left, working on the array as mutated so far.  Returns the array and
`hasRepetition`. -/
def repairScan : Nat → Nat → List Trial → Bool → List Trial × Bool
  | 0, _, shuffled, hasRepetition => (shuffled, hasRepetition)
  | n + 1, i, shuffled, hasRepetition =>
      if stimAt shuffled i == stimAt shuffled (i + 1) then
        match findSwapIndex shuffled i with
        | some swapIndex => repairScan n (i + 1) (swap shuffled (i + 1) swapIndex) true
        | none => repairScan n (i + 1) shuffled true
      else repairScan n (i + 1) shuffled hasRepetition

/-- One pass of the repair loop: `hasRepetition = false`, then the scan from `i = 0`. -/
def repairPass (shuffled : List Trial) : List Trial × Bool :=
  repairScan (shuffled.length - 1) 0 shuffled false

/-- The loop `for (attempts = ...; attempts < 100; attempts++)` with `attempts` passes left,
leaving at the first pass that finds no repetition. -/
def repairLoop : Nat → List Trial → List Trial
  | 0, shuffled => shuffled
  | attempts + 1, shuffled =>
      let r := repairPass shuffled
      if r.2 then repairLoop attempts r.1 else r.1

/-- Source function `shuffleWithConstraints(arr)`: Fisher-Yates from `i = length - 1`, then
at most 100 repair passes. -/
def shuffleWithConstraints (rng : Rng) (k : Nat) (arr : List Trial) : List Trial × Nat :=
  let fy := fisherYates rng (arr.length - 1) k arr
  (repairLoop 100 fy.1, fy.2)

/-- Source function `generateTrialSequence(stimuli, iterations)`: the base sequence,
shuffled. -/
def generateTrialSequence (rng : Rng) (k : Nat) (stimuli : List String) (iterations : Nat) :
    List Trial × Nat :=
  shuffleWithConstraints rng k (baseSequence stimuli iterations)

/-- The list of `stimulusIndex` values of a sequence. -/
def indices (sequence : List Trial) : List Nat := sequence.map (fun t => t.stimulusIndex)

/-- Some two neighbours of the list are equal. -/
def hasAdjacentEqual : List Nat → Bool
  | a :: b :: rest => a == b || hasAdjacentEqual (b :: rest)
  | _ => false

/-- No two adjacent trials of the sequence have the same `stimulusIndex`. -/
def noAdjacentRepeat (sequence : List Trial) : Prop :=
  hasAdjacentEqual (indices sequence) = false

instance (sequence : List Trial) : Decidable (noAdjacentRepeat sequence) :=
  inferInstanceAs (Decidable (hasAdjacentEqual (indices sequence) = false))

/-! ## Engine state -/

/-- An element of `block.results` (the field `rt` is always `null`). -/
structure Response where
  trial : Nat
  stimulus : String
  stimulusIndex : Nat
  iteration : Nat
  response : Nat
  correct : Bool
  deriving DecidableEq, Repr

/-- An element of `state.blocks`.  The object `correctActions` with keys `0 .. setSize-1`
is the list of its values in key order. -/
structure Block where
  setSize : Nat
  stimuli : List String
  correctActions : List Nat
  sequence : List Trial
  results : List Response
  deriving DecidableEq, Repr

/-- The JavaScript number that a division of two non-negative integers yields: `0/0` is
`NaN`, `a/0` with `a > 0` is `Infinity`, anything else is a finite double, kept as the
rational number it denotes. -/
inductive JSNum where
  | nan
  | posInf
  | fin (q : ℚ)
  deriving DecidableEq

/-- The integer nearest to `a / d`, a tie going to the even neighbour (the IEEE 754 rounding
mode of JavaScript arithmetic). -/
def roundHalfEven (a d : Nat) : Nat :=
  let q := a / d
  let r := a % d
  if 2 * r < d then q else if d < 2 * r then q + 1 else if q % 2 = 0 then q else q + 1

/-- The least `j`, counted up from the second argument, with `a / (d * 2^j) < 2^53`. -/
def shiftDown (a d : Nat) : Nat → Nat → Nat
  | 0, j => j
  | fuel + 1, j => if a < 2 ^ 53 * (d * 2 ^ j) then j else shiftDown a d fuel (j + 1)

/-- The least `k`, counted up from the second argument, with `2^52 ≤ a * 2^k / d`. -/
def shiftUp (a d : Nat) : Nat → Nat → Nat
  | 0, k => k
  | fuel + 1, k => if 2 ^ 52 * d ≤ a * 2 ^ k then k else shiftUp a d fuel (k + 1)

/-- The double nearest to `a / d` as `(m, j, k)`, denoting `m * 2^j / 2^k`: the quotient is
scaled by a power of two into `[2^52, 2^53)`, where the doubles are the integers, and
rounded there (53 significant bits, ties to even).  For integers below `2^53` the quotient
is far from the overflow and underflow thresholds. -/
def doubleParts (a d : Nat) : Nat × Nat × Nat :=
  let j := shiftDown a d a 0
  let k := shiftUp a (d * 2 ^ j) (52 + d * 2 ^ j) 0
  (roundHalfEven (a * 2 ^ k) (d * 2 ^ j), j, k)

/-- The value of the double that the JavaScript division `a / d` yields, for `d > 0`. -/
def doubleQuotient (a d : Nat) : ℚ :=
  ((doubleParts a d).1 : ℚ) * 2 ^ (doubleParts a d).2.1 / 2 ^ (doubleParts a d).2.2

/-- The JavaScript division `a / b` of two non-negative integers. -/
def jsDiv (a b : Nat) : JSNum :=
  if b = 0 then (if a = 0 then JSNum.nan else JSNum.posInf)
  else JSNum.fin (doubleQuotient a b)

/-- An element of `state.results.blockResults`. -/
structure BlockResult where
  block : Nat
  setSize : Nat
  accuracy : JSNum
  trials : Nat
  deriving DecidableEq

/-- The object `state.results`. -/
structure Results where
  totalTrials : Nat
  correctResponses : Nat
  blockResults : List BlockResult
  deriving DecidableEq

/-- The global object `state`.  `currentStimulus` and `correctAction` are `none` for both
`null` and `undefined`. -/
structure State where
  currentBlock : Nat
  currentTrial : Nat
  blocks : List Block
  trialSequence : List Trial
  currentStimulus : Option String
  correctAction : Option Nat
  waitingForResponse : Bool
  results : Results
  deriving DecidableEq

/-- A continuation registered with `setTimeout` and not yet run: `startTrial` (from
`startBlock`), `showFeedback(isCorrect)` (from `makeResponse`) and the arrow function of
`showFeedback` that advances `currentTrial`. -/
inductive Timer where
  | startTrial
  | showFeedback (isCorrect : Bool)
  | feedbackTimeout
  deriving DecidableEq, Repr

/-- What `trial-area` currently displays: nothing yet, the stimulus with the three
`.action-btn` buttons (`showStimulus`), the feedback text (`showFeedback`) or the
inter-block screen with the `continueToNextBlock()` button (`endBlock`). -/
inductive TrialArea where
  | blank
  | stimulus
  | feedback
  | blockComplete
  deriving DecidableEq, Repr

/-- The engine: the global `state`, the pending timers in the order they were registered,
and the parts of the page the handlers switch. -/
structure Engine where
  state : State
  timers : List Timer
  trialArea : TrialArea
  gameAreaActive : Bool
  resultsActive : Bool
  deriving DecidableEq

/-- The initial value of `state`, with an untouched page. -/
def initialEngine : Engine :=
  { state :=
      { currentBlock := 0, currentTrial := 0, blocks := [], trialSequence := [],
        currentStimulus := none, correctAction := none, waitingForResponse := false,
        results := { totalTrials := 0, correctResponses := 0, blockResults := [] } },
    timers := [], trialArea := TrialArea.blank, gameAreaActive := false,
    resultsActive := false }

/-- How a handler ends: normally, or with an uncaught `TypeError`; in both cases with the
engine as the handler left it. -/
inductive Outcome where
  | ok (e : Engine)
  | typeError (e : Engine)
  deriving DecidableEq

/-- The engine a handler leaves behind. -/
def Outcome.engine : Outcome → Engine
  | Outcome.ok e => e
  | Outcome.typeError e => e

/-- Runs `f` after a handler that ended normally; a `TypeError` ends the run. -/
def Outcome.andThen (o : Outcome) (f : Engine → Outcome) : Outcome :=
  match o with
  | Outcome.ok e => f e
  | Outcome.typeError e => Outcome.typeError e

/-! ## Setup -/

/-- The body of the `forEach` callback of `generateBlocks` for one `(setSize, blockIndex)`:
the block pushed to `state.blocks`, and the advanced draw counter. -/
def generateBlock (rng : Rng) (k iterations blockIndex setSize : Nat) : Block × Nat :=
  let stimuli := selectStimuli blockIndex setSize
  let correctActions := generateCorrectActions rng k setSize
  let sequence := generateTrialSequence rng correctActions.2 stimuli iterations
  ({ setSize := setSize, stimuli := stimuli, correctActions := correctActions.1,
     sequence := sequence.1, results := [] }, sequence.2)

/-- The `forEach` of `generateBlocks` over the set sizes not yet visited, `blockIndex` being
the index of the first of them and `blocks` the value of `state.blocks` so far. -/
def generateBlocksFrom (rng : Rng) (iterations : Nat) :
    Nat → List Nat → Nat → List Block → List Block × Nat
  | _, [], k, blocks => (blocks, k)
  | blockIndex, setSize :: rest, k, blocks =>
      let b := generateBlock rng k iterations blockIndex setSize
      generateBlocksFrom rng iterations (blockIndex + 1) rest b.2 (blocks ++ [b.1])

/-- Source function `generateBlocks()`: pushes one block per entry of `config.setSizes` to
`state.blocks`. -/
def generateBlocks (cfg : Config) (rng : Rng) (k : Nat) (e : Engine) : Engine :=
  { e with state := { e.state with
      blocks := (generateBlocksFrom rng cfg.iterationsPerStimulus 0 cfg.setSizes k
        e.state.blocks).1 } }

/-! ## Block and trial life cycle -/

/-- Source function `startBlock(blockIndex)`: sets `currentBlock` and `currentTrial`, reads
`block.setSize` (a `TypeError` when `state.blocks[blockIndex]` is `undefined`) and registers
the `startTrial` timer.  It does not touch `trial-area`. -/
def startBlock (blockIndex : Nat) (e : Engine) : Outcome :=
  let e1 := { e with state := { e.state with currentBlock := blockIndex, currentTrial := 0 } }
  match e1.state.blocks[blockIndex]? with
  | none => Outcome.typeError e1
  | some _ => Outcome.ok { e1 with timers := e1.timers ++ [Timer.startTrial] }

/-- Source function `startTrial()`: reads `block.sequence` and `trial.stimulus` (a
`TypeError` when the block or the trial is `undefined`), stores the stimulus and its
correct action, sets `waitingForResponse` and shows the stimulus. -/
def startTrial (e : Engine) : Outcome :=
  match e.state.blocks[e.state.currentBlock]? with
  | none => Outcome.typeError e
  | some block =>
    match block.sequence[e.state.currentTrial]? with
    | none => Outcome.typeError e
    | some trial =>
      Outcome.ok { e with
        state := { e.state with
          currentStimulus := some trial.stimulus,
          correctAction := block.correctActions[trial.stimulusIndex]?,
          waitingForResponse := true },
        trialArea := TrialArea.stimulus }

/-- Source function `makeResponse(action)`.  Returns at once unless `waitingForResponse`;
otherwise clears the flag, highlights `buttons[action - 1]` (a `TypeError` unless the three
`.action-btn` buttons of `showStimulus` are displayed and `action` is 1, 2 or 3), compares
`action` with `state.correctAction`, pushes the response to the current block's results (a
`TypeError` when the block or the trial is `undefined`), updates the totals and registers
the `showFeedback` timer. -/
def makeResponse (action : Nat) (e : Engine) : Outcome :=
  if e.state.waitingForResponse = false then Outcome.ok e
  else
    let e1 := { e with state := { e.state with waitingForResponse := false } }
    if ¬ (e1.trialArea = TrialArea.stimulus ∧ 1 ≤ action ∧ action ≤ 3) then Outcome.typeError e1
    else
      let isCorrect : Bool := e1.state.correctAction == some action
      match e1.state.blocks[e1.state.currentBlock]? with
      | none => Outcome.typeError e1
      | some block =>
        match block.sequence[e1.state.currentTrial]? with
        | none => Outcome.typeError e1
        | some trial =>
          let response : Response :=
            { trial := e1.state.currentTrial, stimulus := trial.stimulus,
              stimulusIndex := trial.stimulusIndex, iteration := trial.iteration,
              response := action, correct := isCorrect }
          Outcome.ok { e1 with
            state := { e1.state with
              blocks := e1.state.blocks.set e1.state.currentBlock
                { block with results := block.results ++ [response] },
              results := { e1.state.results with
                totalTrials := e1.state.results.totalTrials + 1,
                correctResponses :=
                  if isCorrect then e1.state.results.correctResponses + 1
                  else e1.state.results.correctResponses } },
            timers := e1.timers ++ [Timer.showFeedback isCorrect] }

/-- Source function `endBlock()`: computes the block accuracy and pushes the block result,
then shows the inter-block screen. -/
def endBlock (e : Engine) : Outcome :=
  match e.state.blocks[e.state.currentBlock]? with
  | none => Outcome.typeError e
  | some block =>
    let blockAccuracy :=
      jsDiv (block.results.filter (fun r => r.correct)).length block.results.length
    Outcome.ok { e with
      state := { e.state with
        results := { e.state.results with
          blockResults := e.state.results.blockResults ++
            [{ block := e.state.currentBlock, setSize := block.setSize,
               accuracy := blockAccuracy, trials := block.results.length }] } },
      trialArea := TrialArea.blockComplete }

/-- Source function `showFeedback(isCorrect)`: shows the feedback text and registers the
continuation. -/
def showFeedback (_isCorrect : Bool) (e : Engine) : Outcome :=
  Outcome.ok { e with trialArea := TrialArea.feedback,
                      timers := e.timers ++ [Timer.feedbackTimeout] }

/-- The continuation registered by `showFeedback`: `state.currentTrial++`, then
`startTrial()` while `currentTrial < block.sequence.length`, else `endBlock()`. -/
def feedbackTimeout (e : Engine) : Outcome :=
  let e1 := { e with state := { e.state with currentTrial := e.state.currentTrial + 1 } }
  match e1.state.blocks[e1.state.currentBlock]? with
  | none => Outcome.typeError e1
  | some block =>
    if e1.state.currentTrial < block.sequence.length then startTrial e1 else endBlock e1

/-- Source function `showResults()`: switches from the game area to the results screen. -/
def showResults (e : Engine) : Outcome :=
  Outcome.ok { e with gameAreaActive := false, resultsActive := true }

/-- The number `state.results.correctResponses / state.results.totalTrials` that
`showResults` formats as the overall accuracy. -/
def overallAccuracy (e : Engine) : JSNum :=
  jsDiv e.state.results.correctResponses e.state.results.totalTrials

/-- Source function `continueToNextBlock()`: the test `currentBlock < blocks.length - 1` is
written `currentBlock + 1 < blocks.length`. -/
def continueToNextBlock (e : Engine) : Outcome :=
  if e.state.currentBlock + 1 < e.state.blocks.length then
    startBlock (e.state.currentBlock + 1) e
  else showResults e

/-- Source function `confirmConfiguration()`: shows the game area, generates the blocks with
the draws from number `k` on, and starts block 0. -/
def confirmConfiguration (cfg : Config) (rng : Rng) (k : Nat) (e : Engine) : Outcome :=
  startBlock 0 (generateBlocks cfg rng k { e with gameAreaActive := true })

/-! ## Events -/

/-- Runs the pending timer `t`: it leaves the list of pending timers and its continuation
is called. -/
def fire (t : Timer) (e : Engine) : Outcome :=
  let e1 := { e with timers := e.timers.erase t }
  match t with
  | Timer.startTrial => startTrial e1
  | Timer.showFeedback isCorrect => showFeedback isCorrect e1
  | Timer.feedbackTimeout => feedbackTimeout e1

/-- One event of the page: a pending timer runs; a key 1, 2 or 3 is pressed or an action
button is clicked (`makeResponse`); the button of the inter-block screen is clicked
(`continueToNextBlock`). -/
inductive Event where
  | timer (t : Timer)
  | response (action : Nat)
  | nextBlock
  deriving DecidableEq, Repr

/-- When the event can happen: the timer is pending; the action is 1, 2 or 3; the
inter-block screen with its button is displayed. -/
def Event.enabled (e : Engine) : Event → Prop
  | Event.timer t => t ∈ e.timers
  | Event.response action => 1 ≤ action ∧ action ≤ 3
  | Event.nextBlock => e.trialArea = TrialArea.blockComplete

instance (e : Engine) (ev : Event) : Decidable (ev.enabled e) :=
  match ev with
  | Event.timer t => inferInstanceAs (Decidable (t ∈ e.timers))
  | Event.response action => inferInstanceAs (Decidable (1 ≤ action ∧ action ≤ 3))
  | Event.nextBlock => inferInstanceAs (Decidable (e.trialArea = TrialArea.blockComplete))

/-- The handler of the event.  A handler that throws still leaves its engine behind. -/
def Event.apply (e : Engine) : Event → Engine
  | Event.timer t => (fire t e).engine
  | Event.response action => (makeResponse action e).engine
  | Event.nextBlock => (continueToNextBlock e).engine

/-- Applies the events in order. -/
def applyEvents : List Event → Engine → Engine
  | [], e => e
  | ev :: rest, e => applyEvents rest (ev.apply e)

/-- Every event of the list can happen at its turn. -/
def allEnabled : List Event → Engine → Bool
  | [], _ => true
  | ev :: rest, e => decide (ev.enabled e) && allEnabled rest (ev.apply e)

/-- A valid configuration: a non-empty list of set sizes, each from 2 to 6, and at least
one iteration per stimulus. -/
def ValidConfig (cfg : Config) : Prop :=
  cfg.setSizes ≠ [] ∧ (∀ s ∈ cfg.setSizes, 2 ≤ s ∧ s ≤ 6) ∧ 1 ≤ cfg.iterationsPerStimulus

instance (cfg : Config) : Decidable (ValidConfig cfg) :=
  inferInstanceAs (Decidable (cfg.setSizes ≠ [] ∧ (∀ s ∈ cfg.setSizes, 2 ≤ s ∧ s ≤ 6) ∧
    1 ≤ cfg.iterationsPerStimulus))

/-- The engines reachable from the setup of a configuration through events. -/
inductive Reachable (cfg : Config) (rng : Rng) : Engine → Prop where
  | setup : Reachable cfg rng (confirmConfiguration cfg rng 0 initialEngine).engine
  | step {e : Engine} (ev : Event) (h : Reachable cfg rng e) (hen : ev.enabled e) :
      Reachable cfg rng (ev.apply e)

/-- The property of one block that its responses were recorded in trial order: no more
responses than trials, and response `i` is the response to trial `i` of the sequence. -/
def resultsInOrder (block : Block) : Prop :=
  block.results.length ≤ block.sequence.length ∧
  ∀ (i : Nat) (r : Response), block.results[i]? = some r →
    r.trial = i ∧ ∃ t : Trial, block.sequence[i]? = some t ∧ r.stimulusIndex = t.stimulusIndex

/-- Three blocks of two stimuli, one iteration each. -/
def threeBlocks : Config := { setSizes := [2, 2, 2], iterationsPerStimulus := 1 }

/-- The first block answered in the normal order; then the button of the inter-block screen
clicked twice before the `startTrial` timer of the first click has run; then a response
after each of the two `startTrial` timers. -/
def doubleClickTrace : List Event :=
  [Event.timer Timer.startTrial, Event.response 1, Event.timer (Timer.showFeedback true),
   Event.timer Timer.feedbackTimeout, Event.response 1,
   Event.timer (Timer.showFeedback true), Event.timer Timer.feedbackTimeout,
   Event.nextBlock, Event.nextBlock,
   Event.timer Timer.startTrial, Event.response 1,
   Event.timer Timer.startTrial, Event.response 2]

/-! ## A run in the normal order -/

/-- Runs the timer registered first among the pending ones (nothing when none is pending). -/
def tick (e : Engine) : Outcome :=
  match e.timers with
  | [] => Outcome.ok e
  | t :: _ => fire t e

/-- One trial answered once: the response, then the `showFeedback` timer, then its
continuation (which starts the next trial or ends the block). -/
def answerTrial (action : Nat) (e : Engine) : Outcome :=
  ((makeResponse action e).andThen tick).andThen tick

/-- Answers `n` trials in a row; the participant's action at each trial is `policy` of the
engine at that moment. -/
def runTrials (policy : Engine → Nat) : Nat → Engine → Outcome
  | 0, e => Outcome.ok e
  | n + 1, e => (answerTrial (policy e) e).andThen (runTrials policy n)

/-- Runs the current block from the moment `startBlock` returned: the `startTrial` timer,
then every trial of the block's sequence answered once. -/
def runBlock (policy : Engine → Nat) (e : Engine) : Outcome :=
  match e.state.blocks[e.state.currentBlock]? with
  | none => Outcome.typeError e
  | some block => (tick e).andThen (runTrials policy block.sequence.length)

/-- Runs `n` blocks in order: each block to its end, then one click on the button of the
inter-block screen. -/
def runBlocks (policy : Engine → Nat) : Nat → Engine → Outcome
  | 0, e => Outcome.ok e
  | n + 1, e => ((runBlock policy e).andThen continueToNextBlock).andThen (runBlocks policy n)

/-- The whole experiment in the normal order: setup, then every configured block. -/
def runExperiment (cfg : Config) (rng : Rng) (policy : Engine → Nat) : Outcome :=
  (confirmConfiguration cfg rng 0 initialEngine).andThen (runBlocks policy cfg.setSizes.length)

/-- The participant who always gives the action stored in `state.correctAction`. -/
def perfectPolicy (e : Engine) : Nat := e.state.correctAction.getD 0

/-! ## Descriptions of engine states used in the statements -/

/-- The engine displays the trial at `currentTrial` of its current block `block`, waits for
the response, has no pending timer, and `state.correctAction` is the correct action of the
displayed stimulus. -/
structure Awaiting (e : Engine) (block : Block) : Prop where
  waiting : e.state.waitingForResponse = true
  area : e.trialArea = TrialArea.stimulus
  noTimer : e.timers = []
  current : e.state.blocks[e.state.currentBlock]? = some block
  action : ∃ trial, block.sequence[e.state.currentTrial]? = some trial ∧
    e.state.correctAction = block.correctActions[trial.stimulusIndex]?

/-- The engine `e1` is what `e` becomes when the rest of the current block `block` of `e`
has been answered with the responses `rs` and the block has been ended. -/
structure BlockDone (e e1 : Engine) (block : Block) (rs : List Response) : Prop where
  currentBlock : e1.state.currentBlock = e.state.currentBlock
  currentTrial : e1.state.currentTrial = e.state.currentTrial + rs.length
  blocks : e1.state.blocks = e.state.blocks.set e.state.currentBlock
    { block with results := block.results ++ rs }
  totalTrials : e1.state.results.totalTrials = e.state.results.totalTrials + rs.length
  correctResponses : e1.state.results.correctResponses
    = e.state.results.correctResponses + (rs.filter (fun r => r.correct)).length
  blockResults : e1.state.results.blockResults = e.state.results.blockResults ++
    [{ block := e.state.currentBlock, setSize := block.setSize,
       accuracy := jsDiv ((block.results ++ rs).filter (fun r => r.correct)).length
         (block.results ++ rs).length,
       trials := (block.results ++ rs).length }]
  noTimer : e1.timers = []
  area : e1.trialArea = TrialArea.blockComplete
  notWaiting : e1.state.waitingForResponse = false

/-- The response that `makeResponse(action)` pushes while `trial` is displayed. -/
def responseTo (e : Engine) (trial : Trial) (action : Nat) : Response :=
  { trial := e.state.currentTrial, stimulus := trial.stimulus,
    stimulusIndex := trial.stimulusIndex, iteration := trial.iteration,
    response := action, correct := e.state.correctAction == some action }

/-- The number of correct responses among `rs`. -/
def correctCount (rs : List Response) : Nat := (rs.filter (fun r => r.correct)).length

/-- The block result that `endBlock` pushes for block number `b` with content `block`. -/
def blockResultOf (b : Nat) (block : Block) : BlockResult :=
  { block := b, setSize := block.setSize,
    accuracy := jsDiv (correctCount block.results) block.results.length,
    trials := block.results.length }

/-- The product `accuracy * trials` of a block result, taken over the rationals from the
stored double `accuracy` (0 when the accuracy is not a finite number). -/
def BlockResult.weightedAccuracy (r : BlockResult) : ℚ :=
  match r.accuracy with
  | JSNum.fin q => q * (r.trials : ℚ)
  | _ => 0

/-! ## Adjacent repeats -/

/-- The pair of positions `(p, p + 1)` of the array holds the same `stimulusIndex` twice. -/
def repeatAt (shuffled : List Trial) (p : Nat) : Bool :=
  decide (p + 1 < shuffled.length) && (stimAt shuffled p == stimAt shuffled (p + 1))

/-- The number of adjacent positions of the array holding the same `stimulusIndex`. -/
def adjacentRepeats (shuffled : List Trial) : Nat :=
  (List.range shuffled.length).countP (fun p => repeatAt shuffled p)

/-- The condition on a swap position `j` in the words of the specification: after swapping
`shuffled[i + 1]` and `shuffled[j]` there is no adjacent repeat at the pairs `(i, i+1)`,
`(i+1, i+2)`, `(j-1, j)` and `(j, j+1)`. -/
def swapLeavesNoRepeat (shuffled : List Trial) (i j : Nat) : Bool :=
  let swapped := swap shuffled (i + 1) j
  !repeatAt swapped i && !repeatAt swapped (i + 1) && !repeatAt swapped (j - 1) &&
    !repeatAt swapped j

/-- The swap position in the words of the specification: the first `j` from `i + 2` on,
inside the array, for which `swapLeavesNoRepeat` holds. -/
def specSwapIndex (shuffled : List Trial) (i : Nat) : Option Nat :=
  (List.range' (i + 2) (shuffled.length - (i + 2))).find?
    (fun j => swapLeavesNoRepeat shuffled i j)

/-! ## Configuration editing -/

/-- Source function `updateSetSize(blockIndex, newSize)`: the assignment
`config.setSizes[blockIndex] = newSize` for an index inside the array, as the buttons of the
configuration screen issue it.  An assignment past the end would leave holes in the array,
which a list cannot hold: `none`. -/
def updateSetSize (blockIndex newSize : Nat) (cfg : Config) : Option Config :=
  if blockIndex < cfg.setSizes.length then
    some { cfg with setSizes := cfg.setSizes.set blockIndex newSize }
  else none

/-- Source function `addBlock()`: `config.setSizes.push(3)`. -/
def addBlock (cfg : Config) : Config :=
  { cfg with setSizes := cfg.setSizes ++ [3] }

/-- Source function `removeBlock()`: `config.setSizes.pop()` when the array has more than one
element, nothing otherwise. -/
def removeBlock (cfg : Config) : Config :=
  if cfg.setSizes.length > 1 then { cfg with setSizes := cfg.setSizes.dropLast } else cfg

/-- One call of a configuration-editing function. -/
inductive ConfigEdit where
  | updateSetSize (blockIndex newSize : Nat)
  | addBlock
  | removeBlock
  deriving DecidableEq, Repr

/-- The configuration after the call. -/
def ConfigEdit.apply (cfg : Config) : ConfigEdit → Option Config
  | ConfigEdit.updateSetSize blockIndex newSize => RLWM.updateSetSize blockIndex newSize cfg
  | ConfigEdit.addBlock => some (RLWM.addBlock cfg)
  | ConfigEdit.removeBlock => some (RLWM.removeBlock cfg)

/-- The call is one that the configuration screen generated by `generateConfigUI` can issue:
`updateSetSize(index, size)` with `index` a position of `config.setSizes` and `size` one of
2, 3, 4, 5, 6; `addBlock()` and `removeBlock()` always. -/
def ConfigEdit.allowed (cfg : Config) : ConfigEdit → Bool
  | ConfigEdit.updateSetSize blockIndex newSize =>
      decide (blockIndex < cfg.setSizes.length) && decide (2 ≤ newSize) && decide (newSize ≤ 6)
  | ConfigEdit.addBlock => true
  | ConfigEdit.removeBlock => true

/-- The configuration after a sequence of calls. -/
def applyEdits : List ConfigEdit → Config → Option Config
  | [], cfg => some cfg
  | ed :: rest, cfg =>
      match ed.apply cfg with
      | some cfg1 => applyEdits rest cfg1
      | none => none

/-- Every call of the sequence is allowed in the configuration it is applied to. -/
def editsAllowed : List ConfigEdit → Config → Bool
  | [], _ => true
  | ed :: rest, cfg =>
      ed.allowed cfg &&
        (match ed.apply cfg with
         | some cfg1 => editsAllowed rest cfg1
         | none => false)

/-- The list of set sizes is non-empty and every entry is from 2 to 6. -/
def ValidSetSizes (setSizes : List Nat) : Prop :=
  setSizes ≠ [] ∧ ∀ s ∈ setSizes, 2 ≤ s ∧ s ≤ 6

instance (setSizes : List Nat) : Decidable (ValidSetSizes setSizes) :=
  inferInstanceAs (Decidable (setSizes ≠ [] ∧ ∀ s ∈ setSizes, 2 ≤ s ∧ s ≤ 6))

/-- The value of `config` in the source: set sizes 2, 3, 4, 5, 6, 3 and ten iterations. -/
def defaultConfig : Config := { setSizes := [2, 3, 4, 5, 6, 3], iterationsPerStimulus := 10 }

/-! ## Concrete inputs -/

/-- The draws 1/2, 3/4, 1/2 (then 0): on four trials Fisher-Yates takes `j = 2` for `i = 3`,
`j = 2` for `i = 2` and `j = 1` for `i = 1`, so it swaps positions 3 and 2 only. -/
def rngMiddleRepeat : Rng := fun k =>
  [(⟨1, 2, by decide⟩ : Draw), ⟨3, 4, by decide⟩, ⟨1, 2, by decide⟩].getD k ⟨0, 1, by decide⟩

/-- The draw 0 at every call. -/
def rngZero : Rng := fun _ => ⟨0, 1, by decide⟩

/-- An engine whose only block is a block of the first category with two stimuli, a
sequence of two trials and no recorded response. -/
def emptyResultsEngine : Engine :=
  { initialEngine with state := { initialEngine.state with
      blocks := [{ setSize := 2, stimuli := selectStimuli 0 2, correctActions := [1, 3],
                   sequence := baseSequence (selectStimuli 0 2) 1, results := [] }] } }

/-- The draws 7/8, 7/8, 1/2, 1/2, 1/2 (then 0): on the six trials of three stimuli and two
iterations Fisher-Yates takes `j = 5, 4, 2, 1, 1` and leaves the stimulus indices
0, 0, 1, 2, 1, 2. -/
def rngFirstRepeat : Rng := fun k =>
  [(⟨7, 8, by decide⟩ : Draw), ⟨7, 8, by decide⟩, ⟨1, 2, by decide⟩, ⟨1, 2, by decide⟩,
    ⟨1, 2, by decide⟩].getD k ⟨0, 1, by decide⟩

/-- The draws 7/8, 1/2, 1/2, 3/4, 1/2 (then 0): on the six trials of three stimuli and two
iterations Fisher-Yates takes `j = 5, 2, 2, 2, 1` and leaves the stimulus indices
0, 1, 0, 1, 2, 2. -/
def rngLastRepeat : Rng := fun k =>
  [(⟨7, 8, by decide⟩ : Draw), ⟨1, 2, by decide⟩, ⟨1, 2, by decide⟩, ⟨3, 4, by decide⟩,
    ⟨1, 2, by decide⟩].getD k ⟨0, 1, by decide⟩

/-- The array left by Fisher-Yates for two stimuli, two iterations and the draws
`rngMiddleRepeat`: stimulus indices 0, 1, 1, 0. -/
def middleRepeatArray : List Trial :=
  (fisherYates rngMiddleRepeat 3 0 (baseSequence (selectStimuli 0 2) 2)).1

/-- The array left by Fisher-Yates for three stimuli, two iterations and the draws
`rngFirstRepeat`: stimulus indices 0, 0, 1, 2, 1, 2. -/
def firstRepeatArray : List Trial :=
  (fisherYates rngFirstRepeat 5 0 (baseSequence (selectStimuli 0 3) 2)).1

/-- The array left by Fisher-Yates for three stimuli, two iterations and the draws
`rngLastRepeat`: stimulus indices 0, 1, 0, 1, 2, 2. -/
def lastRepeatArray : List Trial :=
  (fisherYates rngLastRepeat 5 0 (baseSequence (selectStimuli 0 3) 2)).1

/-- The first block of `threeBlocks` answered in the normal order, up to the inter-block
screen. -/
def blockZeroTrace : List Event :=
  [Event.timer Timer.startTrial, Event.response 1, Event.timer (Timer.showFeedback true),
   Event.timer Timer.feedbackTimeout, Event.response 1,
   Event.timer (Timer.showFeedback true), Event.timer Timer.feedbackTimeout]

/-- The engine at the end of block 0 of `threeBlocks` (draw 0 throughout), showing the
inter-block screen. -/
def blockZeroDoneEngine : Engine :=
  applyEvents blockZeroTrace (confirmConfiguration threeBlocks rngZero 0 initialEngine).engine

/-- Both pending `startTrial` timers run, then the two trials of the current block are
answered in the normal order and the button of the inter-block screen is clicked once. -/
def afterDoubleClickTrace : List Event :=
  [Event.timer Timer.startTrial, Event.timer Timer.startTrial,
   Event.response 1, Event.timer (Timer.showFeedback true), Event.timer Timer.feedbackTimeout,
   Event.response 1, Event.timer (Timer.showFeedback true), Event.timer Timer.feedbackTimeout,
   Event.nextBlock]

/-- The stream of the draws `n / 8` for the numerators `n` of the list (taken modulo 8), then
the draw 0. -/
def rngOfEighths (numerators : List Nat) : Rng := fun k =>
  ⟨numerators.getD k 0 % 8, 8, Nat.mod_lt _ (by decide)⟩

/-- Draws for which Fisher-Yates leaves, for `setSize` stimuli and two iterations, a sequence
whose only adjacent repeat is at its last two positions (set sizes 3 to 6), or the sequence
0, 1, 1, 0 (set size 2). -/
def rngResidual (setSize : Nat) : Rng :=
  match setSize with
  | 2 => rngOfEighths [4, 6, 4]
  | 3 => rngOfEighths [7, 4, 0, 6, 1]
  | 4 => rngOfEighths [4, 0, 1, 1, 0, 7, 0]
  | 5 => rngOfEighths [2, 7, 6, 3, 7, 3, 0, 6, 5]
  | 6 => rngOfEighths [0, 5, 6, 4, 0, 2, 3, 5, 2, 5, 6]
  | _ => rngZero

/-- A subject who presses the key 1 on the first seven trials of a block and the key 2 on
every later trial. -/
def sevenCorrect (e : Engine) : Nat := if e.state.currentTrial < 7 then 1 else 2

/-! ## Theorems -/

theorem Draw.floorMul_eq_floor (r : Draw) (n : Nat) :
    r.floorMul n = ⌊((r.num : ℚ) / (r.den : ℚ)) * (n : ℚ)⌋₊ := by
  unfold Draw.floorMul
  rw [div_mul_eq_mul_div, ← Nat.cast_mul, Nat.floor_div_eq_div]

theorem Draw.floorMul_lt (r : Draw) {n : Nat} (hn : 0 < n) : r.floorMul n < n := by
  unfold Draw.floorMul
  have hd : 0 < r.den := Nat.lt_of_le_of_lt (Nat.zero_le _) r.lt
  rw [Nat.div_lt_iff_lt_mul hd]
  exact Nat.mul_lt_mul_of_pos_right r.lt hn |>.trans_eq (Nat.mul_comm _ _)

/-! ### Swaps are permutations -/

theorem cons_set_perm {α : Type} (x b : α) :
    ∀ (xs : List α) (j : Nat), xs[j]? = some b → (b :: xs.set j x).Perm (x :: xs)
  | [], j, h => by simp at h
  | y :: ys, 0, h => by
      simp at h
      subst h
      simpa using List.Perm.swap x y ys
  | y :: ys, j + 1, h => by
      simp at h
      have ih := cons_set_perm x b ys j h
      simp only [List.set_cons_succ]
      exact (List.Perm.swap y b _).trans (((ih.cons y)).trans (List.Perm.swap x y ys))

theorem swap_perm {α : Type} : ∀ (xs : List α) (i j : Nat), (swap xs i j).Perm xs
  | [], i, j => by simp [swap]
  | x :: xs, 0, 0 => by simp [swap]
  | x :: xs, 0, j + 1 => by
      unfold swap
      cases h : xs[j]? with
      | none => simp [h]
      | some b => simpa [h] using cons_set_perm x b xs j h
  | x :: xs, i + 1, 0 => by
      unfold swap
      cases h : xs[i]? with
      | none => simp [h]
      | some a => simpa [h] using cons_set_perm x a xs i h
  | x :: xs, i + 1, j + 1 => by
      have ih := swap_perm xs i j
      unfold swap at ih ⊢
      cases hi : xs[i]? with
      | none => simp [hi]
      | some a =>
        cases hj : xs[j]? with
        | none => simp [hi, hj]
        | some b => simpa [hi, hj] using ih

theorem swap_length {α : Type} (xs : List α) (i j : Nat) : (swap xs i j).length = xs.length :=
  (swap_perm xs i j).length_eq

theorem fisherYates_perm (rng : Rng) :
    ∀ (i k : Nat) (xs : List Trial), (fisherYates rng i k xs).1.Perm xs
  | 0, _, _ => List.Perm.refl _
  | i + 1, k, xs => by
      simp only [fisherYates]
      exact (fisherYates_perm rng i (k + 1) _).trans (swap_perm _ _ _)

theorem repairScan_perm :
    ∀ (n i : Nat) (xs : List Trial) (b : Bool), (repairScan n i xs b).1.Perm xs
  | 0, _, _, _ => List.Perm.refl _
  | n + 1, i, xs, b => by
      simp only [repairScan]
      split
      · split
        · exact (repairScan_perm n (i + 1) _ true).trans (swap_perm _ _ _)
        · exact repairScan_perm n (i + 1) _ true
      · exact repairScan_perm n (i + 1) _ b

theorem repairLoop_perm : ∀ (attempts : Nat) (xs : List Trial), (repairLoop attempts xs).Perm xs
  | 0, _ => List.Perm.refl _
  | attempts + 1, xs => by
      have h : (repairPass xs).1.Perm xs := repairScan_perm _ _ _ _
      simp only [repairLoop]
      split
      · exact (repairLoop_perm attempts _).trans h
      · exact h

theorem shuffleWithConstraints_perm (rng : Rng) (k : Nat) (arr : List Trial) :
    (shuffleWithConstraints rng k arr).1.Perm arr :=
  (repairLoop_perm 100 _).trans (fisherYates_perm rng _ k arr)

/-! ### The base sequence -/

theorem baseSequence_length (stimuli : List String) (iterations : Nat) :
    (baseSequence stimuli iterations).length = stimuli.length * iterations := by
  unfold baseSequence
  induction iterations with
  | zero => simp
  | succ n ih =>
      rw [List.range_succ, List.flatMap_append, List.length_append, ih]
      simp [Nat.mul_succ]

theorem indices_baseSequence (stimuli : List String) (iterations : Nat) :
    indices (baseSequence stimuli iterations)
      = (List.range iterations).flatMap (fun _ => List.range stimuli.length) := by
  unfold baseSequence indices
  induction iterations with
  | zero => simp
  | succ n ih =>
      have h : List.map (fun t => t.stimulusIndex) (stimuli.enum.map (fun p =>
          ({ stimulusIndex := p.1, stimulus := p.2, iteration := n + 1 } : Trial)))
          = List.range stimuli.length := by
        rw [List.map_map]
        exact List.enum_map_fst stimuli
      rw [List.range_succ, List.flatMap_append, List.flatMap_append, List.map_append, ih]
      simp [h]

theorem count_indices_baseSequence (stimuli : List String) (iterations s : Nat)
    (hs : s < stimuli.length) :
    (indices (baseSequence stimuli iterations)).count s = iterations := by
  rw [indices_baseSequence]
  induction iterations with
  | zero => simp
  | succ n ih =>
      rw [List.range_succ, List.flatMap_append, List.count_append, ih]
      simp [List.count_eq_one_of_mem (List.nodup_range _) (List.mem_range.2 hs)]

theorem generateTrialSequence_perm (rng : Rng) (k : Nat) (stimuli : List String)
    (iterations : Nat) :
    (generateTrialSequence rng k stimuli iterations).1.Perm (baseSequence stimuli iterations) :=
  shuffleWithConstraints_perm rng k _

theorem generateTrialSequence_counts (rng : Rng) (k : Nat) (stimuli : List String)
    (iterations : Nat) :
    (generateTrialSequence rng k stimuli iterations).1.length = stimuli.length * iterations ∧
    ∀ s, s < stimuli.length →
      (indices (generateTrialSequence rng k stimuli iterations).1).count s = iterations := by
  have hp := generateTrialSequence_perm rng k stimuli iterations
  refine ⟨hp.length_eq.trans (baseSequence_length _ _), fun s hs => ?_⟩
  have hc : (indices (generateTrialSequence rng k stimuli iterations).1).Perm
      (indices (baseSequence stimuli iterations)) := hp.map _
  rw [hc.count_eq]
  exact count_indices_baseSequence stimuli iterations s hs

/-- C1: for a stimulus list of length at least 1, at least one iteration and any stream of
random draws (consumed from any position), `generateTrialSequence` returns a sequence of
length `setSize * iterations` in which every stimulus index below `setSize` occurs exactly
`iterations` times. -/
theorem generateTrialSequence_length_count (rng : Rng) (k : Nat) (stimuli : List String)
    (iterations : Nat) (_hsize : 1 ≤ stimuli.length) (_hiter : 1 ≤ iterations) :
    (generateTrialSequence rng k stimuli iterations).1.length = stimuli.length * iterations ∧
    ∀ s, s < stimuli.length →
      (indices (generateTrialSequence rng k stimuli iterations).1).count s = iterations :=
  generateTrialSequence_counts rng k stimuli iterations

theorem stimAt_of_lt (xs : List Trial) (i : Nat) (h : i < xs.length) :
    stimAt xs i = some (xs.get ⟨i, h⟩).stimulusIndex := by
  simp [stimAt, List.getElem?_eq_getElem h]

theorem hasAdjacentEqual_eq_false_iff :
    ∀ l : List Nat, hasAdjacentEqual l = false ↔ List.Chain' (fun a b => a ≠ b) l
  | [] => by simp [hasAdjacentEqual]
  | [a] => by simp [hasAdjacentEqual]
  | a :: b :: rest => by
      rw [List.chain'_cons, ← hasAdjacentEqual_eq_false_iff (b :: rest)]
      simp [hasAdjacentEqual]

theorem noAdjacentRepeat_stimAt (xs : List Trial) (h : noAdjacentRepeat xs) (i : Nat)
    (hi : i + 1 < xs.length) : (stimAt xs i == stimAt xs (i + 1)) = false := by
  have h0 := (hasAdjacentEqual_eq_false_iff _).1 h
  have h1 := (List.chain'_iff_get.1 h0) i (by simp [indices]; omega)
  simp [indices] at h1
  rw [stimAt_of_lt xs i (by omega), stimAt_of_lt xs (i + 1) hi]
  simpa using h1

theorem repairScan_of_noAdjacentRepeat (xs : List Trial) (h : noAdjacentRepeat xs) :
    ∀ (n i : Nat), i + n + 1 ≤ xs.length → repairScan n i xs false = (xs, false)
  | 0, _, _ => rfl
  | n + 1, i, hn => by
      simp only [repairScan]
      rw [noAdjacentRepeat_stimAt xs h i (by omega)]
      simpa using repairScan_of_noAdjacentRepeat xs h n (i + 1) (by omega)

theorem repairPass_of_noAdjacentRepeat (xs : List Trial) (h : noAdjacentRepeat xs) :
    repairPass xs = (xs, false) := by
  unfold repairPass
  cases hx : xs.length with
  | zero => rfl
  | succ m => exact repairScan_of_noAdjacentRepeat xs h m 0 (by omega)

theorem repairLoop_of_noAdjacentRepeat (xs : List Trial) (h : noAdjacentRepeat xs) (n : Nat) :
    repairLoop n xs = xs := by
  cases n with
  | zero => rfl
  | succ n => simp [repairLoop, repairPass_of_noAdjacentRepeat xs h]

/-- C2, evaluation at the failing input: with two stimuli, two iterations and the draws
1/2, 3/4, 1/2 the Fisher-Yates step leaves the stimulus indices 0, 1, 1, 0, the repair loop
returns them as they are after its 100 passes, and two adjacent trials share an index;
exchanging the last two positions, the first position the search of the repair pass looks
at, would have left 0, 1, 0, 1 with no adjacent repeat. -/
theorem generateTrialSequence_adjacent_repeat :
    (selectStimuli 0 2).length = 2 ∧
    indices (fisherYates rngMiddleRepeat 3 0 (baseSequence (selectStimuli 0 2) 2)).1
      = [0, 1, 1, 0] ∧
    indices (generateTrialSequence rngMiddleRepeat 0 (selectStimuli 0 2) 2).1 = [0, 1, 1, 0] ∧
    ¬ noAdjacentRepeat (generateTrialSequence rngMiddleRepeat 0 (selectStimuli 0 2) 2).1 ∧
    indices (swap (generateTrialSequence rngMiddleRepeat 0 (selectStimuli 0 2) 2).1 2 3)
      = [0, 1, 0, 1] ∧
    noAdjacentRepeat (swap (generateTrialSequence rngMiddleRepeat 0 (selectStimuli 0 2) 2).1 2 3) := by
  decide

theorem generateTrialSequence_length_count_witness :
    1 ≤ (selectStimuli 0 3).length ∧ 1 ≤ 10 ∧
    (generateTrialSequence rngZero 0 (selectStimuli 0 3) 10).1.length = 3 * 10 ∧
    (indices (generateTrialSequence rngZero 0 (selectStimuli 0 3) 10).1).count 2 = 10 :=
  ⟨by decide, by decide,
    (generateTrialSequence_length_count rngZero 0 (selectStimuli 0 3) 10 (by decide)
      (by decide)).1,
    (generateTrialSequence_length_count rngZero 0 (selectStimuli 0 3) 10 (by decide)
      (by decide)).2 2 (by decide)⟩

/-- C3: when `waitingForResponse` is false, `makeResponse(action)` returns without changing
anything: the engine after the call is the engine before it, for every action. -/
theorem makeResponse_not_waiting (action : Nat) (e : Engine)
    (h : e.state.waitingForResponse = false) : makeResponse action e = Outcome.ok e := by
  simp [makeResponse, h]

theorem makeResponse_not_waiting_witness :
    initialEngine.state.waitingForResponse = false ∧
    makeResponse 2 initialEngine = Outcome.ok initialEngine :=
  ⟨rfl, makeResponse_not_waiting 2 initialEngine rfl⟩

/-! ### Single handlers -/

theorem makeResponse_waiting (action : Nat) (e : Engine) (block : Block) (trial : Trial)
    (hw : e.state.waitingForResponse = true) (ha : e.trialArea = TrialArea.stimulus)
    (h1 : 1 ≤ action) (h3 : action ≤ 3)
    (hb : e.state.blocks[e.state.currentBlock]? = some block)
    (ht : block.sequence[e.state.currentTrial]? = some trial) :
    makeResponse action e = Outcome.ok { e with
      state := { e.state with
        waitingForResponse := false,
        blocks := e.state.blocks.set e.state.currentBlock
          { block with results := block.results ++
            [{ trial := e.state.currentTrial, stimulus := trial.stimulus,
               stimulusIndex := trial.stimulusIndex, iteration := trial.iteration,
               response := action, correct := e.state.correctAction == some action }] },
        results := { e.state.results with
          totalTrials := e.state.results.totalTrials + 1,
          correctResponses :=
            if (e.state.correctAction == some action) = true
            then e.state.results.correctResponses + 1
            else e.state.results.correctResponses } },
      timers := e.timers ++ [Timer.showFeedback (e.state.correctAction == some action)] } := by
  simp [makeResponse, hw, ha, h1, h3, hb, ht]

theorem startTrial_ok (e : Engine) (block : Block) (trial : Trial)
    (hb : e.state.blocks[e.state.currentBlock]? = some block)
    (ht : block.sequence[e.state.currentTrial]? = some trial) :
    startTrial e = Outcome.ok { e with
      state := { e.state with
        currentStimulus := some trial.stimulus,
        correctAction := block.correctActions[trial.stimulusIndex]?,
        waitingForResponse := true },
      trialArea := TrialArea.stimulus } := by
  simp [startTrial, hb, ht]

theorem startTrial_inv (e e1 : Engine) (h : startTrial e = Outcome.ok e1) :
    ∃ block trial, e.state.blocks[e.state.currentBlock]? = some block ∧
      block.sequence[e.state.currentTrial]? = some trial ∧
      e1 = { e with
        state := { e.state with
          currentStimulus := some trial.stimulus,
          correctAction := block.correctActions[trial.stimulusIndex]?,
          waitingForResponse := true },
        trialArea := TrialArea.stimulus } := by
  unfold startTrial at h
  cases hb : e.state.blocks[e.state.currentBlock]? with
  | none => simp [hb] at h
  | some block =>
    cases ht : block.sequence[e.state.currentTrial]? with
    | none => simp [hb, ht] at h
    | some trial =>
      simp only [hb, ht, Outcome.ok.injEq] at h
      exact ⟨block, trial, rfl, ht, h.symm⟩

/-- C4: in a state just produced by `startTrial` (where `waitingForResponse` is true), for
an action 1, 2 or 3, `makeResponse(action)` appends exactly one response to the results of
the current block and changes no other block; the response's `correct` flag is true exactly
when `action` is `block.correctActions[block.sequence[currentTrial].stimulusIndex]`, its
`stimulusIndex` and `iteration` are those of that trial; `totalTrials` grows by one,
`correctResponses` grows by one exactly when the response is correct, and
`waitingForResponse` becomes false. -/
theorem makeResponse_after_startTrial (e e1 : Engine) (action : Nat)
    (hstart : startTrial e = Outcome.ok e1) (h1 : 1 ≤ action) (h3 : action ≤ 3) :
    e1.state.waitingForResponse = true ∧
    ∃ block trial e2 r,
      e1.state.blocks[e1.state.currentBlock]? = some block ∧
      block.sequence[e1.state.currentTrial]? = some trial ∧
      makeResponse action e1 = Outcome.ok e2 ∧
      e2.state.blocks = e1.state.blocks.set e1.state.currentBlock
        { block with results := block.results ++ [r] } ∧
      (r.correct = true ↔ block.correctActions[trial.stimulusIndex]? = some action) ∧
      r.stimulusIndex = trial.stimulusIndex ∧ r.iteration = trial.iteration ∧
      r.trial = e1.state.currentTrial ∧ r.response = action ∧
      e2.state.results.totalTrials = e1.state.results.totalTrials + 1 ∧
      e2.state.results.correctResponses
        = e1.state.results.correctResponses + (if r.correct then 1 else 0) ∧
      e2.state.results.blockResults = e1.state.results.blockResults ∧
      e2.state.currentBlock = e1.state.currentBlock ∧
      e2.state.currentTrial = e1.state.currentTrial ∧
      e2.state.waitingForResponse = false := by
  obtain ⟨block, trial, hb, ht, he1⟩ := startTrial_inv e e1 hstart
  subst he1
  refine ⟨rfl, block, trial, _, _, hb, ht,
    makeResponse_waiting action _ block trial rfl rfl h1 h3 hb ht, rfl, ?_, rfl, rfl, rfl, rfl,
    rfl, ?_, rfl, rfl, rfl, rfl⟩
  · simp
  · simp only []
    split <;> rfl

theorem makeResponse_after_startTrial_witness :
    startTrial (confirmConfiguration ⟨[2], 1⟩ rngZero 0 initialEngine).engine
      = Outcome.ok (startTrial (confirmConfiguration ⟨[2], 1⟩ rngZero 0 initialEngine).engine).engine ∧
    (1 ≤ 2 ∧ 2 ≤ 3) ∧
    (startTrial (confirmConfiguration ⟨[2], 1⟩ rngZero 0
      initialEngine).engine).engine.state.waitingForResponse = true :=
  ⟨by decide, by decide,
    (makeResponse_after_startTrial (confirmConfiguration ⟨[2], 1⟩ rngZero 0 initialEngine).engine
      _ 2 (by decide) (by decide) (by decide)).1⟩

/-! ### Setup -/

theorem generateBlocksFrom_length (rng : Rng) (iterations : Nat) :
    ∀ (setSizes : List Nat) (blockIndex k : Nat) (blocks : List Block),
      (generateBlocksFrom rng iterations blockIndex setSizes k blocks).1.length
        = blocks.length + setSizes.length
  | [], _, _, _ => by simp [generateBlocksFrom]
  | s :: rest, blockIndex, k, blocks => by
      simp only [generateBlocksFrom]
      rw [generateBlocksFrom_length rng iterations rest]
      simp
      omega

/-- C9, counterexample: with the set sizes `[7]` setup ends normally with one block in
`state.blocks` and the first trial starts; with the set sizes `[0]` setup ends normally with
one block in `state.blocks` as well.  No configuration error is reported. -/
theorem confirmConfiguration_accepts_bad_sizes :
    (confirmConfiguration ⟨[7], 1⟩ rngZero 0 initialEngine
      = Outcome.ok (confirmConfiguration ⟨[7], 1⟩ rngZero 0 initialEngine).engine ∧
     (confirmConfiguration ⟨[7], 1⟩ rngZero 0 initialEngine).engine.state.blocks.length = 1 ∧
     (tick (confirmConfiguration ⟨[7], 1⟩ rngZero 0
        initialEngine).engine).engine.state.waitingForResponse = true) ∧
    (confirmConfiguration ⟨[0], 1⟩ rngZero 0 initialEngine
      = Outcome.ok (confirmConfiguration ⟨[0], 1⟩ rngZero 0 initialEngine).engine ∧
     (confirmConfiguration ⟨[0], 1⟩ rngZero 0 initialEngine).engine.state.blocks.length = 1) := by
  decide

/-- C9, amended: from the initial state, for a configuration whose block list is empty
setup creates no block and `startBlock(0)` ends with a `TypeError` before any timer is
registered, so no trial is started; for every non-empty block list, whatever its set sizes
(also below 1 or above 6), setup reports no error, creates one block per entry and registers
the timer of the first trial. -/
theorem confirmConfiguration_outcome (cfg : Config) (rng : Rng) (k : Nat) :
    (cfg.setSizes = [] →
      ∃ e, confirmConfiguration cfg rng k initialEngine = Outcome.typeError e ∧
        e.state.blocks = [] ∧ e.timers = [] ∧ e.state.waitingForResponse = false ∧
        e.state.results = initialEngine.state.results) ∧
    (cfg.setSizes ≠ [] →
      ∃ e, confirmConfiguration cfg rng k initialEngine = Outcome.ok e ∧
        e.state.blocks.length = cfg.setSizes.length ∧ e.timers = [Timer.startTrial]) := by
  constructor
  · intro h
    have he : confirmConfiguration cfg rng k initialEngine
        = Outcome.typeError { initialEngine with gameAreaActive := true } := by
      simp only [confirmConfiguration, generateBlocks, startBlock, h, generateBlocksFrom,
        initialEngine]
      rfl
    exact ⟨_, he, rfl, rfl, rfl, rfl⟩
  · intro h
    have hlen := generateBlocksFrom_length rng cfg.iterationsPerStimulus cfg.setSizes 0 k []
    have hpos : 0 < cfg.setSizes.length := List.length_pos.2 h
    cases hb : (generateBlocksFrom rng cfg.iterationsPerStimulus 0 cfg.setSizes k []).1[0]? with
    | none =>
      rw [List.getElem?_eq_none_iff] at hb
      simp at hlen
      omega
    | some b =>
      have he : confirmConfiguration cfg rng k initialEngine
          = Outcome.ok { initialEngine with
              gameAreaActive := true,
              state := { initialEngine.state with
                blocks := (generateBlocksFrom rng cfg.iterationsPerStimulus 0 cfg.setSizes k
                  []).1 },
              timers := [Timer.startTrial] } := by
        simp only [confirmConfiguration, generateBlocks, startBlock, initialEngine, hb]
        rfl
      exact ⟨_, he, by simpa using hlen, rfl⟩

theorem confirmConfiguration_outcome_witness :
    (⟨[], 10⟩ : Config).setSizes = [] ∧ (⟨[2, 3], 10⟩ : Config).setSizes ≠ [] ∧
    (∃ e, confirmConfiguration ⟨[], 10⟩ rngZero 0 initialEngine = Outcome.typeError e ∧
        e.state.blocks = [] ∧ e.timers = [] ∧ e.state.waitingForResponse = false ∧
        e.state.results = initialEngine.state.results) ∧
    (∃ e, confirmConfiguration ⟨[2, 3], 10⟩ rngZero 0 initialEngine = Outcome.ok e ∧
        e.state.blocks.length = 2 ∧ e.timers = [Timer.startTrial]) :=
  ⟨rfl, by decide, (confirmConfiguration_outcome ⟨[], 10⟩ rngZero 0).1 rfl,
    (confirmConfiguration_outcome ⟨[2, 3], 10⟩ rngZero 0).2 (by decide)⟩

/-! ### End of a block -/

/-- C10, counterexample: for a block without recorded responses `endBlock` records a block
result with `trials = 0` whose accuracy is `NaN`, the result of `0 / 0`, and not 0. -/
theorem endBlock_nan_not_zero :
    (endBlock emptyResultsEngine).engine.state.results.blockResults
      = [{ block := 0, setSize := 2, accuracy := JSNum.nan, trials := 0 }] ∧
    JSNum.nan ≠ JSNum.fin 0 := by
  decide

/-- C10, amended: for a current block whose results list is empty, `endBlock` records a
block result with `trials = 0` and the accuracy `NaN` that the unguarded division `0 / 0`
yields, and shows the inter-block screen. -/
theorem endBlock_empty_results (e : Engine) (block : Block)
    (hb : e.state.blocks[e.state.currentBlock]? = some block) (hr : block.results = []) :
    endBlock e = Outcome.ok { e with
      state := { e.state with
        results := { e.state.results with
          blockResults := e.state.results.blockResults ++
            [{ block := e.state.currentBlock, setSize := block.setSize,
               accuracy := JSNum.nan, trials := 0 }] } },
      trialArea := TrialArea.blockComplete } := by
  simp [endBlock, hb, hr, jsDiv]

theorem endBlock_empty_results_witness :
    (∃ block, emptyResultsEngine.state.blocks[emptyResultsEngine.state.currentBlock]?
        = some block ∧ block.results = []) ∧
    (endBlock emptyResultsEngine).engine.state.results.blockResults.map (fun r => r.trials)
      = [0] :=
  ⟨⟨_, rfl, rfl⟩, by rw [endBlock_empty_results emptyResultsEngine _ rfl rfl]; rfl⟩

/-! ### One answered trial -/

theorem answerTrial_next (action : Nat) (e : Engine) (block : Block) (trial next : Trial)
    (h : Awaiting e block) (h1 : 1 ≤ action) (h3 : action ≤ 3)
    (ht : block.sequence[e.state.currentTrial]? = some trial)
    (hn : block.sequence[e.state.currentTrial + 1]? = some next) :
    ∃ e1 r, answerTrial action e = Outcome.ok e1 ∧
      r.correct = (e.state.correctAction == some action) ∧
      r.trial = e.state.currentTrial ∧ r.stimulusIndex = trial.stimulusIndex ∧
      Awaiting e1 { block with results := block.results ++ [r] } ∧
      e1.state.currentBlock = e.state.currentBlock ∧
      e1.state.currentTrial = e.state.currentTrial + 1 ∧
      e1.state.blocks = e.state.blocks.set e.state.currentBlock
        { block with results := block.results ++ [r] } ∧
      e1.state.results.totalTrials = e.state.results.totalTrials + 1 ∧
      e1.state.results.correctResponses
        = e.state.results.correctResponses + correctCount [r] ∧
      e1.state.results.blockResults = e.state.results.blockResults := by
  have hlt : e.state.currentBlock < e.state.blocks.length := by
    have := h.current
    rw [List.getElem?_eq_some_iff] at this
    exact this.1
  have hlen : e.state.currentTrial + 1 < block.sequence.length := by
    rw [List.getElem?_eq_some_iff] at hn
    exact hn.1
  have he : answerTrial action e = Outcome.ok
      { state :=
          { currentBlock := e.state.currentBlock,
            currentTrial := e.state.currentTrial + 1,
            blocks := e.state.blocks.set e.state.currentBlock
              { block with results := block.results ++
                [{ trial := e.state.currentTrial, stimulus := trial.stimulus,
                   stimulusIndex := trial.stimulusIndex, iteration := trial.iteration,
                   response := action, correct := e.state.correctAction == some action }] },
            trialSequence := e.state.trialSequence,
            currentStimulus := some next.stimulus,
            correctAction := block.correctActions[next.stimulusIndex]?,
            waitingForResponse := true,
            results :=
              { totalTrials := e.state.results.totalTrials + 1,
                correctResponses :=
                  if (e.state.correctAction == some action) = true
                  then e.state.results.correctResponses + 1
                  else e.state.results.correctResponses,
                blockResults := e.state.results.blockResults } },
        timers := [],
        trialArea := TrialArea.stimulus,
        gameAreaActive := e.gameAreaActive,
        resultsActive := e.resultsActive } := by
    simp only [answerTrial, makeResponse_waiting action e block trial h.waiting h.area h1 h3
      h.current ht, Outcome.andThen, tick, fire, h.noTimer, showFeedback, feedbackTimeout]
    simp [hlt, hlen, startTrial, hn]
  refine ⟨_, _, he, rfl, rfl, rfl, ?_, rfl, rfl, rfl, rfl, ?_, rfl⟩
  · exact ⟨rfl, rfl, rfl, by simp [hlt], ⟨next, hn, rfl⟩⟩
  · simp only [correctCount]
    cases e.state.correctAction == some action <;> simp

theorem answerTrial_last (action : Nat) (e : Engine) (block : Block) (trial : Trial)
    (h : Awaiting e block) (h1 : 1 ≤ action) (h3 : action ≤ 3)
    (ht : block.sequence[e.state.currentTrial]? = some trial)
    (hn : e.state.currentTrial + 1 = block.sequence.length) :
    ∃ e1 r, answerTrial action e = Outcome.ok e1 ∧
      r.correct = (e.state.correctAction == some action) ∧
      r.trial = e.state.currentTrial ∧ r.stimulusIndex = trial.stimulusIndex ∧
      BlockDone e e1 block [r] := by
  have hlt : e.state.currentBlock < e.state.blocks.length := by
    have := h.current
    rw [List.getElem?_eq_some_iff] at this
    exact this.1
  have he : answerTrial action e = Outcome.ok
      { state :=
          { currentBlock := e.state.currentBlock,
            currentTrial := e.state.currentTrial + 1,
            blocks := e.state.blocks.set e.state.currentBlock
              { block with results := block.results ++ [responseTo e trial action] },
            trialSequence := e.state.trialSequence,
            currentStimulus := e.state.currentStimulus,
            correctAction := e.state.correctAction,
            waitingForResponse := false,
            results :=
              { totalTrials := e.state.results.totalTrials + 1,
                correctResponses :=
                  if (e.state.correctAction == some action) = true
                  then e.state.results.correctResponses + 1
                  else e.state.results.correctResponses,
                blockResults := e.state.results.blockResults ++
                  [{ block := e.state.currentBlock, setSize := block.setSize,
                     accuracy := jsDiv ((block.results ++ [responseTo e trial action]).filter
                        (fun r => r.correct)).length
                       (block.results ++ [responseTo e trial action]).length,
                     trials := (block.results ++ [responseTo e trial action]).length }] } },
        timers := [],
        trialArea := TrialArea.blockComplete,
        gameAreaActive := e.gameAreaActive,
        resultsActive := e.resultsActive } := by
    simp only [answerTrial, makeResponse_waiting action e block trial h.waiting h.area h1 h3
      h.current ht, Outcome.andThen, tick, fire, h.noTimer, showFeedback, feedbackTimeout]
    simp [hlt, hn, endBlock, responseTo]
  refine ⟨_, responseTo e trial action, he, rfl, rfl, rfl, ?_⟩
  refine ⟨rfl, rfl, rfl, rfl, ?_, rfl, rfl, rfl, rfl⟩
  simp only [responseTo]
  cases e.state.correctAction == some action <;> simp

/-! ### A whole block -/

theorem runTrials_spec (policy : Engine → Nat) (P : Bool → Prop) (sequence : List Trial)
    (correctActions : List Nat)
    (hpol : ∀ e1 blk, Awaiting e1 blk → blk.sequence = sequence →
      blk.correctActions = correctActions →
      1 ≤ policy e1 ∧ policy e1 ≤ 3 ∧ P (e1.state.correctAction == some (policy e1))) :
    ∀ (n : Nat) (e : Engine) (block : Block), Awaiting e block →
      block.sequence = sequence → block.correctActions = correctActions →
      e.state.currentTrial + n = block.sequence.length →
      ∃ e1 rs, runTrials policy n e = Outcome.ok e1 ∧ rs.length = n ∧
        BlockDone e e1 block rs ∧ ∀ r ∈ rs, P r.correct
  | 0, e, block, h, _, _, hn => by
      obtain ⟨trial, ht, _⟩ := h.action
      rw [List.getElem?_eq_some_iff] at ht
      obtain ⟨hlt, _⟩ := ht
      omega
  | n + 1, e, block, h, hs, hc, hn => by
      obtain ⟨trial, ht, _⟩ := h.action
      obtain ⟨hp1, hp3, hP⟩ := hpol e block h hs hc
      simp only [runTrials]
      by_cases hlast : e.state.currentTrial + 1 = block.sequence.length
      · obtain ⟨e1, r, he, hr, _, _, hd⟩ := answerTrial_last (policy e) e block trial h hp1 hp3 ht hlast
        have hn0 : n = 0 := by omega
        subst hn0
        refine ⟨e1, [r], by simp [he, Outcome.andThen, runTrials], rfl, hd, ?_⟩
        intro r' hr'
        simp at hr'
        subst hr'
        rw [hr]
        exact hP
      · have hlt : e.state.currentTrial + 1 < block.sequence.length := by omega
        obtain ⟨next, hnext⟩ : ∃ next, block.sequence[e.state.currentTrial + 1]? = some next :=
          ⟨_, List.getElem?_eq_getElem hlt⟩
        obtain ⟨e1, r, he, hr, _, _, haw, hcb, hct, hbl, htt, hcr, hbr⟩ :=
          answerTrial_next (policy e) e block trial next h hp1 hp3 ht hnext
        obtain ⟨e2, rs, he2, hlen, hd, hall⟩ :=
          runTrials_spec policy P sequence correctActions hpol n e1
            { block with results := block.results ++ [r] } haw hs hc
            (by simp only [hct]; omega)
        refine ⟨e2, r :: rs, by simp [he, Outcome.andThen, he2], by simp [hlen], ?_, ?_⟩
        · refine ⟨hd.currentBlock.trans hcb, ?_, ?_, ?_, ?_, ?_, hd.noTimer, hd.area,
            hd.notWaiting⟩
          · rw [hd.currentTrial, hct]; simp; omega
          · rw [hd.blocks, hbl, hcb, List.set_set]; simp
          · rw [hd.totalTrials, htt]; simp; omega
          · rw [hd.correctResponses, hcr]
            simp only [correctCount, List.filter_cons]
            cases r.correct <;> simp [Nat.add_assoc, Nat.add_comm]
          · rw [hd.blockResults, hbr, hcb]; simp
        · intro r' hr'
          simp at hr'
          rcases hr' with hr' | hr'
          · subst hr'
            rw [hr]
            exact hP
          · exact hall r' hr'

theorem runBlock_spec (policy : Engine → Nat) (P : Bool → Prop) (e : Engine) (block : Block)
    (hpol : ∀ e1 blk, Awaiting e1 blk → blk.sequence = block.sequence →
      blk.correctActions = block.correctActions →
      1 ≤ policy e1 ∧ policy e1 ≤ 3 ∧ P (e1.state.correctAction == some (policy e1)))
    (htimer : e.timers = [Timer.startTrial]) (hct : e.state.currentTrial = 0)
    (hb : e.state.blocks[e.state.currentBlock]? = some block)
    (hpos : 0 < block.sequence.length) :
    ∃ e1 rs, runBlock policy e = Outcome.ok e1 ∧ rs.length = block.sequence.length ∧
      BlockDone e e1 block rs ∧ ∀ r ∈ rs, P r.correct := by
  obtain ⟨trial, ht⟩ : ∃ trial, block.sequence[e.state.currentTrial]? = some trial :=
    ⟨_, List.getElem?_eq_getElem (by omega)⟩
  have hstart := startTrial_ok { e with timers := [] } block trial hb ht
  have haw : Awaiting { e with
      state := { e.state with
        currentStimulus := some trial.stimulus,
        correctAction := block.correctActions[trial.stimulusIndex]?,
        waitingForResponse := true },
      timers := [],
      trialArea := TrialArea.stimulus } block :=
    ⟨rfl, rfl, rfl, hb, ⟨trial, ht, rfl⟩⟩
  obtain ⟨e1, rs, he1, hlen, hd, hall⟩ :=
    runTrials_spec policy P block.sequence block.correctActions hpol block.sequence.length _
      block haw rfl rfl (by simp [hct])
  refine ⟨e1, rs, ?_, hlen, ⟨hd.currentBlock, hd.currentTrial, hd.blocks, hd.totalTrials,
    hd.correctResponses, hd.blockResults, hd.noTimer, hd.area, hd.notWaiting⟩, hall⟩
  simp only [runBlock, hb, tick, htimer, fire, List.erase_cons_head]
  rw [hstart]
  simpa [Outcome.andThen] using he1

/-! ### Generated blocks -/

theorem stimulusCategories_length (blockIndex : Nat) :
    (stimulusCategories.getD (blockIndex % stimulusCategories.length) []).length = 6 := by
  have h : ∀ i, i < 6 → (stimulusCategories.getD i []).length = 6 := by decide
  exact h _ (Nat.mod_lt _ (by decide))

theorem selectStimuli_length (blockIndex setSize : Nat) (h : setSize ≤ 6) :
    (selectStimuli blockIndex setSize).length = setSize := by
  simp only [selectStimuli, List.length_take, stimulusCategories_length]
  omega

theorem stimulusIndex_lt_of_mem_baseSequence (stimuli : List String) (iterations : Nat)
    (t : Trial) (h : t ∈ baseSequence stimuli iterations) :
    t.stimulusIndex < stimuli.length := by
  have hm : t.stimulusIndex ∈ indices (baseSequence stimuli iterations) :=
    List.mem_map_of_mem _ h
  rw [indices_baseSequence] at hm
  simp only [List.mem_flatMap, List.mem_range] at hm
  obtain ⟨_, _, h2⟩ := hm
  exact h2

theorem generateBlock_sequence_length (rng : Rng) (k iterations blockIndex setSize : Nat)
    (h : setSize ≤ 6) :
    (generateBlock rng k iterations blockIndex setSize).1.sequence.length
      = setSize * iterations := by
  simp only [generateBlock]
  rw [(generateTrialSequence_perm rng _ _ _).length_eq, baseSequence_length,
    selectStimuli_length _ _ h]

theorem generateBlock_correctAction (rng : Rng) (k iterations blockIndex setSize : Nat)
    (h : setSize ≤ 6) (t : Trial)
    (ht : t ∈ (generateBlock rng k iterations blockIndex setSize).1.sequence) :
    ∃ c, (generateBlock rng k iterations blockIndex setSize).1.correctActions[t.stimulusIndex]?
      = some c ∧ 1 ≤ c ∧ c ≤ 3 := by
  simp only [generateBlock] at ht ⊢
  have hlt : t.stimulusIndex < setSize := by
    have := stimulusIndex_lt_of_mem_baseSequence _ _ t
      ((generateTrialSequence_perm rng _ _ _).mem_iff.1 ht)
    rwa [selectStimuli_length _ _ h] at this
  refine ⟨(rng (k + t.stimulusIndex)).floorMul 3 + 1, ?_, by omega, ?_⟩
  · simp [generateCorrectActions, hlt]
  · have := Draw.floorMul_lt (rng (k + t.stimulusIndex)) (n := 3) (by decide)
    omega

theorem perfectPolicy_spec (block : Block)
    (hca : ∀ t ∈ block.sequence, ∃ c, block.correctActions[t.stimulusIndex]? = some c ∧
      1 ≤ c ∧ c ≤ 3)
    (e1 : Engine) (blk : Block) (h : Awaiting e1 blk) (hs : blk.sequence = block.sequence)
    (hc : blk.correctActions = block.correctActions) :
    1 ≤ perfectPolicy e1 ∧ perfectPolicy e1 ≤ 3 ∧
      (e1.state.correctAction == some (perfectPolicy e1)) = true := by
  obtain ⟨trial, ht, ha⟩ := h.action
  rw [hs] at ht
  rw [hc] at ha
  obtain ⟨c, hc1, hc2, hc3⟩ := hca trial (List.getElem?_mem ht)
  rw [hc1] at ha
  simp [perfectPolicy, ha, hc2, hc3]

theorem roundHalfEven_error (a d : Nat) (hd : 0 < d) :
    2 * (roundHalfEven a d * d) ≤ 2 * a + d ∧ 2 * a ≤ 2 * (roundHalfEven a d * d) + d := by
  have h := Nat.div_add_mod a d
  have hr := Nat.mod_lt a hd
  unfold roundHalfEven
  simp only []
  generalize a / d = q at *
  generalize a % d = r at *
  have e1 : (q + 1) * d = q * d + d := by ring
  have e2 : d * q = q * d := by ring
  split
  · omega
  · split
    · rw [e1]; omega
    · split
      · omega
      · rw [e1]; omega

theorem roundHalfEven_zero (d : Nat) : roundHalfEven 0 d = 0 := by
  simp [roundHalfEven]

theorem shiftUp_spec (a d : Nat) :
    ∀ (fuel k : Nat), 2 ^ 52 * d ≤ a * 2 ^ (k + fuel) →
      2 ^ 52 * d ≤ a * 2 ^ (shiftUp a d fuel k)
  | 0, k, h => by simpa [shiftUp] using h
  | fuel + 1, k, h => by
      simp only [shiftUp]
      split
      · assumption
      · exact shiftUp_spec a d fuel (k + 1) (by rwa [Nat.add_assoc, Nat.add_comm 1 fuel])

theorem shiftUp_ok (a d : Nat) (ha : 0 < a) :
    2 ^ 52 * d ≤ a * 2 ^ (shiftUp a d (52 + d) 0) := by
  apply shiftUp_spec
  have h1 : d < 2 ^ d := Nat.lt_two_pow d
  have h2 : (2 : Nat) ^ (0 + (52 + d)) = 2 ^ 52 * 2 ^ d := by rw [Nat.zero_add, Nat.pow_add]
  rw [h2]
  calc 2 ^ 52 * d ≤ 2 ^ 52 * 2 ^ d := Nat.mul_le_mul_left _ (Nat.le_of_lt h1)
    _ ≤ a * (2 ^ 52 * 2 ^ d) := Nat.le_mul_of_pos_left _ ha

theorem shiftDown_zero (a d fuel : Nat) (h : a < 2 ^ 53 * d) : shiftDown a d fuel 0 = 0 := by
  cases fuel with
  | zero => rfl
  | succ f =>
      have h2 : a < 2 ^ 53 * (d * 2 ^ 0) := by rwa [Nat.pow_zero, Nat.mul_one]
      simp only [shiftDown, if_pos h2]

theorem doubleParts_of_le (c n : Nat) (hcn : c ≤ n) (hc : 0 < c) :
    doubleParts c n
      = (roundHalfEven (c * 2 ^ (shiftUp c n (52 + n) 0)) n, 0, shiftUp c n (52 + n) 0) := by
  have hlt : c < 2 ^ 53 * n := by
    have hn : 0 < n := by omega
    have h2 : n < 2 ^ 53 * n := by
      calc n = 1 * n := (Nat.one_mul n).symm
        _ < 2 ^ 53 * n := Nat.mul_lt_mul_of_pos_right (by decide) hn
    omega
  simp [doubleParts, shiftDown_zero c n c hlt]

theorem doubleQuotient_zero (n : Nat) : doubleQuotient 0 n = 0 := by
  simp [doubleQuotient, doubleParts, roundHalfEven_zero]

theorem doubleQuotient_self (n : Nat) (hn : 0 < n) : doubleQuotient n n = 1 := by
  unfold doubleQuotient
  rw [doubleParts_of_le n n (Nat.le_refl n) hn]
  simp only [pow_zero, mul_one]
  have hm : roundHalfEven (n * 2 ^ (shiftUp n n (52 + n) 0)) n
      = 2 ^ (shiftUp n n (52 + n) 0) := by
    unfold roundHalfEven
    simp only [Nat.mul_div_cancel_left _ hn, Nat.mul_mod_right]
    simp [hn]
  rw [hm]
  push_cast
  exact div_self (by positivity)

theorem doubleQuotient_error (c n : Nat) (hn : 0 < n) (hcn : c ≤ n) :
    |doubleQuotient c n * (n : ℚ) - (c : ℚ)| ≤ (c : ℚ) / 2 ^ 53 := by
  rcases Nat.eq_zero_or_pos c with hc | hc
  · subst hc
    simp [doubleQuotient_zero]
  unfold doubleQuotient
  rw [doubleParts_of_le c n hcn hc]
  simp only [pow_zero, mul_one]
  generalize hk : shiftUp c n (52 + n) 0 = k
  have hup : 2 ^ 52 * n ≤ c * 2 ^ k := hk ▸ shiftUp_ok c n hc
  obtain ⟨h1, h2⟩ := roundHalfEven_error (c * 2 ^ k) n hn
  generalize roundHalfEven (c * 2 ^ k) n = m at h1 h2
  have hK : (0 : ℚ) < 2 ^ k := by positivity
  have q1 : (2 : ℚ) * (m * n) ≤ 2 * (c * 2 ^ k) + n := by exact_mod_cast h1
  have q2 : (2 : ℚ) * (c * 2 ^ k) ≤ 2 * (m * n) + n := by exact_mod_cast h2
  have q3 : (2 : ℚ) ^ 52 * n ≤ c * 2 ^ k := by exact_mod_cast hup
  have he : (m : ℚ) / 2 ^ k * n - c = (m * n - c * 2 ^ k) / 2 ^ k := by
    field_simp
    ring
  rw [he, abs_le]
  constructor
  · rw [le_div_iff₀ hK]
    have : -((c : ℚ) / 2 ^ 53) * 2 ^ k = -(c * 2 ^ k) / 2 ^ 53 := by ring
    rw [this, div_le_iff₀ (by positivity)]
    nlinarith
  · rw [div_le_iff₀ hK]
    have : ((c : ℚ) / 2 ^ 53) * 2 ^ k = (c * 2 ^ k) / 2 ^ 53 := by ring
    rw [this, le_div_iff₀ (by positivity)]
    nlinarith

theorem doubleParts_examples :
    doubleParts 1 3 = (6004799503160661, 0, 54) ∧
    doubleParts 7 50 = (5044031582654956, 0, 55) ∧
    doubleParts 15 22 = (6141272219141585, 0, 53) ∧
    doubleParts 3 4 = (6755399441055744, 0, 53) ∧
    doubleParts 3 1 = (6755399441055744, 0, 51) := by
  decide

theorem jsDiv_of_pos (a b : Nat) (h : 0 < b) : jsDiv a b = JSNum.fin (doubleQuotient a b) := by
  have h0 : b ≠ 0 := by omega
  simp [jsDiv, h0]

theorem jsDiv_self (n : Nat) (h : 0 < n) : jsDiv n n = JSNum.fin 1 := by
  rw [jsDiv_of_pos n n h, doubleQuotient_self n h]

theorem filter_correct_of_all (rs : List Response) (h : ∀ r ∈ rs, r.correct = true) :
    rs.filter (fun r => r.correct) = rs := by
  rw [List.filter_eq_self]
  exact h

theorem startBlock_ok (b : Nat) (e : Engine) (block : Block)
    (hb : e.state.blocks[b]? = some block) :
    startBlock b e = Outcome.ok { e with
      state := { e.state with currentBlock := b, currentTrial := 0 },
      timers := e.timers ++ [Timer.startTrial] } := by
  simp [startBlock, hb]

theorem perfect_block_spec (rng : Rng) (k iterations blockIndex setSize : Nat)
    (e0 : Engine) (b : Nat) (hs2 : 2 ≤ setSize) (hs6 : setSize ≤ 6) (hiter : 1 ≤ iterations)
    (hnt : e0.timers = [])
    (hb : e0.state.blocks[b]? = some (generateBlock rng k iterations blockIndex setSize).1) :
    ∃ e1 rs, (startBlock b e0).andThen (runBlock perfectPolicy) = Outcome.ok e1 ∧
      rs.length = setSize * iterations ∧ (∀ r ∈ rs, r.correct = true) ∧
      e1.state.currentBlock = b ∧
      e1.state.blocks = e0.state.blocks.set b
        { (generateBlock rng k iterations blockIndex setSize).1 with results := rs } ∧
      e1.state.results.blockResults = e0.state.results.blockResults ++
        [{ block := b, setSize := setSize, accuracy := JSNum.fin 1,
           trials := setSize * iterations }] ∧
      e1.state.results.totalTrials = e0.state.results.totalTrials + setSize * iterations ∧
      e1.state.results.correctResponses
        = e0.state.results.correctResponses + setSize * iterations := by
  have hlen := generateBlock_sequence_length rng k iterations blockIndex setSize hs6
  have hpos : 0 < setSize * iterations := Nat.mul_pos (by omega) (by omega)
  rw [startBlock_ok b e0 _ hb]
  obtain ⟨e1, rs, he1, hrl, hd, hall⟩ :=
    runBlock_spec perfectPolicy (fun c => c = true)
      { e0 with state := { e0.state with currentBlock := b, currentTrial := 0 },
                timers := e0.timers ++ [Timer.startTrial] }
      (generateBlock rng k iterations blockIndex setSize).1
      (perfectPolicy_spec _ (generateBlock_correctAction rng k iterations blockIndex setSize hs6))
      (by simp [hnt]) rfl hb (by omega)
  rw [hlen] at hrl
  refine ⟨e1, rs, by simpa [Outcome.andThen] using he1, hrl, hall, hd.currentBlock, ?_, ?_, ?_,
    ?_⟩
  · rw [hd.blocks]
    rfl
  · rw [hd.blockResults]
    have hres : (generateBlock rng k iterations blockIndex setSize).1.results = [] := rfl
    simp only [hres, List.nil_append, filter_correct_of_all rs hall, hrl, jsDiv_self _ hpos]
    rfl
  · rw [hd.totalTrials, hrl]
  · rw [hd.correctResponses, filter_correct_of_all rs hall, hrl]

/-- C5: take any engine without pending timers whose block number `b` was generated from a
set size from 2 to 6 with at least one iteration (any draws).  Starting that block and
answering every trial with the stored correct action ends normally; the block result pushed
at the end has accuracy exactly 1 and `trials` equal to the sequence length
`setSize * iterations`, and `totalTrials` and `correctResponses` have both grown by that
length.  For the configuration `setSizes = [2]`, `iterationsPerStimulus = 2` the whole
experiment ends with `totalTrials = 4`, `correctResponses = 4` and accuracy 1. -/
theorem runBlock_perfect :
    (∀ (rng : Rng) (k iterations blockIndex setSize : Nat) (e0 : Engine) (b : Nat),
      2 ≤ setSize → setSize ≤ 6 → 1 ≤ iterations → e0.timers = [] →
      e0.state.blocks[b]? = some (generateBlock rng k iterations blockIndex setSize).1 →
      ∃ e1, (startBlock b e0).andThen (runBlock perfectPolicy) = Outcome.ok e1 ∧
        (generateBlock rng k iterations blockIndex setSize).1.sequence.length
          = setSize * iterations ∧
        e1.state.results.blockResults = e0.state.results.blockResults ++
          [{ block := b, setSize := setSize, accuracy := JSNum.fin 1,
             trials := setSize * iterations }] ∧
        e1.state.results.totalTrials = e0.state.results.totalTrials + setSize * iterations ∧
        e1.state.results.correctResponses
          = e0.state.results.correctResponses + setSize * iterations) ∧
    (∀ rng : Rng, ∃ e, runExperiment ⟨[2], 2⟩ rng perfectPolicy = Outcome.ok e ∧
      e.state.results.totalTrials = 4 ∧ e.state.results.correctResponses = 4 ∧
      e.state.results.blockResults
        = [{ block := 0, setSize := 2, accuracy := JSNum.fin 1, trials := 4 }]) := by
  constructor
  · intro rng k iterations blockIndex setSize e0 b hs2 hs6 hiter hnt hb
    obtain ⟨e1, rs, he1, _, _, _, _, hbr, htt, hcr⟩ :=
      perfect_block_spec rng k iterations blockIndex setSize e0 b hs2 hs6 hiter hnt hb
    exact ⟨e1, he1, generateBlock_sequence_length rng k iterations blockIndex setSize hs6,
      hbr, htt, hcr⟩
  · intro rng
    obtain ⟨e1, rs, he1, _, _, hcb, hbl, hbr, htt, hcr⟩ :=
      perfect_block_spec rng 0 2 0 2
        (generateBlocks ⟨[2], 2⟩ rng 0 { initialEngine with gameAreaActive := true }) 0
        (by decide) (by decide) (by decide) rfl rfl
    have hlen : e1.state.blocks.length = 1 := by
      rw [hbl]
      simp [generateBlocks, generateBlocksFrom, initialEngine]
    refine ⟨{ e1 with gameAreaActive := false, resultsActive := true }, ?_, htt, hcr, hbr⟩
    simp only [runExperiment, confirmConfiguration, List.length_singleton, runBlocks]
    cases hsb : startBlock 0 (generateBlocks ⟨[2], 2⟩ rng 0
        { initialEngine with gameAreaActive := true }) with
    | typeError e2 => simp [hsb, Outcome.andThen] at he1
    | ok e2 =>
      simp only [hsb, Outcome.andThen] at he1 ⊢
      simp [he1, continueToNextBlock, hcb, hlen, showResults]

/-! ### All blocks in order -/

theorem getElem?_append_length {α : Type} (done rest : List α) (b : α) :
    (done ++ b :: rest)[done.length]? = some b := by
  induction done with
  | nil => simp
  | cons a done ih => simpa using ih

theorem getElem?_append_length_succ {α : Type} (done rest : List α) (b b2 : α) :
    (done ++ b :: b2 :: rest)[done.length + 1]? = some b2 := by
  induction done with
  | nil => simp
  | cons a done ih => simpa using ih

theorem set_append_length {α : Type} (done rest : List α) (b c : α) :
    (done ++ b :: rest).set done.length c = done ++ c :: rest := by
  induction done with
  | nil => rfl
  | cons a done ih => simp [ih]

theorem continueToNextBlock_spec (e : Engine) (done rest : List Block) (block : Block)
    (hbl : e.state.blocks = done ++ block :: rest) (hcb : e.state.currentBlock = done.length)
    (hnt : e.timers = []) :
    ∃ e2, continueToNextBlock e = Outcome.ok e2 ∧ e2.state.blocks = e.state.blocks ∧
      e2.state.results = e.state.results ∧
      (rest ≠ [] → e2.timers = [Timer.startTrial] ∧ e2.state.currentTrial = 0 ∧
        e2.state.currentBlock = done.length + 1) := by
  cases rest with
  | nil =>
    refine ⟨{ e with gameAreaActive := false, resultsActive := true }, ?_, rfl, rfl, ?_⟩
    · simp [continueToNextBlock, hbl, hcb, showResults]
    · intro h
      exact absurd rfl h
  | cons b2 rest2 =>
    have hb2 : e.state.blocks[e.state.currentBlock + 1]? = some b2 := by
      rw [hbl, hcb]
      exact getElem?_append_length_succ done rest2 block b2
    have hlt : e.state.currentBlock + 1 < e.state.blocks.length := by
      rw [hbl, hcb]
      simp
    have he : continueToNextBlock e = Outcome.ok { e with
        state := { e.state with currentBlock := e.state.currentBlock + 1, currentTrial := 0 },
        timers := e.timers ++ [Timer.startTrial] } := by
      simp only [continueToNextBlock, hlt, if_true]
      exact startBlock_ok _ e b2 hb2
    exact ⟨_, he, rfl, rfl, fun _ => ⟨by simp [hnt], rfl, by simp [hcb]⟩⟩

theorem runBlocks_spec (policy : Engine → Nat) (hpol : ∀ e, 1 ≤ policy e ∧ policy e ≤ 3) :
    ∀ (todo done : List Block) (e : Engine),
      e.state.blocks = done ++ todo →
      (todo ≠ [] → e.timers = [Timer.startTrial] ∧ e.state.currentTrial = 0 ∧
        e.state.currentBlock = done.length) →
      (∀ b ∈ todo, b.results = [] ∧ 0 < b.sequence.length) →
      ∃ e1 finished, runBlocks policy todo.length e = Outcome.ok e1 ∧
        e1.state.blocks = done ++ finished ∧
        List.Forall₂ (fun b f => f.setSize = b.setSize ∧ f.results.length = b.sequence.length)
          todo finished ∧
        e1.state.results.blockResults = e.state.results.blockResults ++
          (finished.enumFrom done.length).map (fun p => blockResultOf p.1 p.2) ∧
        e1.state.results.totalTrials = e.state.results.totalTrials +
          (finished.map (fun f => f.results.length)).sum ∧
        e1.state.results.correctResponses = e.state.results.correctResponses +
          (finished.map (fun f => correctCount f.results)).sum
  | [], done, e, hbl, _, _ =>
      ⟨e, [], rfl, hbl, List.Forall₂.nil, by simp, by simp, by simp⟩
  | block :: rest, done, e, hbl, hpre, hall => by
      obtain ⟨htimer, hct, hcb⟩ := hpre (by simp)
      obtain ⟨hres, hpos⟩ := hall block (by simp)
      have hb : e.state.blocks[e.state.currentBlock]? = some block := by
        rw [hbl, hcb]
        exact getElem?_append_length done rest block
      obtain ⟨e1, rs, he1, hrl, hd, _⟩ :=
        runBlock_spec policy (fun _ => True) e block
          (fun e1 _ _ _ _ => ⟨(hpol e1).1, (hpol e1).2, trivial⟩) htimer hct hb hpos
      have hbl1 : e1.state.blocks = done ++ { block with results := rs } :: rest := by
        rw [hd.blocks, hbl, hcb, hres, set_append_length]
        rfl
      obtain ⟨e2, he2, hbl2, hr2, hpre2⟩ :=
        continueToNextBlock_spec e1 done rest _ hbl1 (hd.currentBlock.trans hcb) hd.noTimer
      obtain ⟨e3, finished, he3, hbl3, hf, hbr3, htt3, hcr3⟩ :=
        runBlocks_spec policy hpol rest (done ++ [{ block with results := rs }]) e2
          (by rw [hbl2, hbl1]; simp)
          (fun h => by simpa using hpre2 h)
          (fun b hb => hall b (List.mem_cons_of_mem _ hb))
      refine ⟨e3, { block with results := rs } :: finished, ?_, by rw [hbl3]; simp,
        List.Forall₂.cons ⟨rfl, hrl⟩ hf, ?_, ?_, ?_⟩
      · simp only [List.length_cons, runBlocks, he1, Outcome.andThen, he2]
        exact he3
      · rw [hbr3, hr2, hd.blockResults, hcb, hres]
        simp [List.enumFrom_cons, blockResultOf, correctCount]
      · rw [htt3, hr2, hd.totalTrials]
        simp
        omega
      · rw [hcr3, hr2, hd.correctResponses]
        simp [correctCount]
        omega

/-! ### The whole experiment -/

theorem generateBlocksFrom_spec (rng : Rng) (iterations : Nat) :
    ∀ (setSizes : List Nat) (blockIndex k : Nat) (blocks : List Block),
      ∃ gen, (generateBlocksFrom rng iterations blockIndex setSizes k blocks).1 = blocks ++ gen ∧
        List.Forall₂ (fun s b => b.setSize = s ∧ b.results = [] ∧
          (s ≤ 6 → b.sequence.length = s * iterations)) setSizes gen
  | [], _, _, blocks => ⟨[], by simp [generateBlocksFrom], List.Forall₂.nil⟩
  | s :: rest, blockIndex, k, blocks => by
      obtain ⟨gen, hg, hf⟩ := generateBlocksFrom_spec rng iterations rest (blockIndex + 1)
        (generateBlock rng k iterations blockIndex s).2
        (blocks ++ [(generateBlock rng k iterations blockIndex s).1])
      refine ⟨(generateBlock rng k iterations blockIndex s).1 :: gen, ?_, List.Forall₂.cons
        ⟨rfl, rfl, fun h => generateBlock_sequence_length rng k iterations blockIndex s h⟩ hf⟩
      simp only [generateBlocksFrom, hg]
      simp

theorem runExperiment_spec (cfg : Config) (rng : Rng) (policy : Engine → Nat)
    (hv : ValidConfig cfg) (hpol : ∀ e, 1 ≤ policy e ∧ policy e ≤ 3) :
    ∃ e finished, runExperiment cfg rng policy = Outcome.ok e ∧
      List.Forall₂ (fun s f => f.setSize = s ∧
        f.results.length = s * cfg.iterationsPerStimulus) cfg.setSizes finished ∧
      e.state.results.blockResults
        = (finished.enumFrom 0).map (fun p => blockResultOf p.1 p.2) ∧
      e.state.results.totalTrials = (finished.map (fun f => f.results.length)).sum ∧
      e.state.results.correctResponses = (finished.map (fun f => correctCount f.results)).sum := by
  obtain ⟨hne, hsz, hit⟩ := hv
  obtain ⟨gen, hg, hf⟩ := generateBlocksFrom_spec rng cfg.iterationsPerStimulus cfg.setSizes 0 0 []
  simp only [List.nil_append] at hg
  have hgne : gen ≠ [] := by
    intro h
    have hl := hf.length_eq
    rw [h] at hl
    exact hne (List.length_eq_zero.1 hl)
  obtain ⟨b0, hb0⟩ : ∃ b0, gen[0]? = some b0 := by
    cases gen with
    | nil => exact absurd rfl hgne
    | cons b0 _ => exact ⟨b0, by simp⟩
  have hstart : confirmConfiguration cfg rng 0 initialEngine = Outcome.ok
      { initialEngine with
        gameAreaActive := true,
        state := { initialEngine.state with blocks := gen },
        timers := [Timer.startTrial] } := by
    simp only [confirmConfiguration, generateBlocks, startBlock, initialEngine, hg, hb0]
    rfl
  have hall : ∀ b ∈ gen, b.results = [] ∧ 0 < b.sequence.length := by
    intro b hb
    obtain ⟨i, hi⟩ := List.mem_iff_getElem?.1 hb
    rw [List.getElem?_eq_some_iff] at hi
    obtain ⟨hlt, hi⟩ := hi
    have hr := hf.get (hf.length_eq ▸ hlt) hlt
    simp only [List.get_eq_getElem, hi] at hr
    have hs := hsz _ (List.getElem_mem (hf.length_eq ▸ hlt))
    refine ⟨hr.2.1, ?_⟩
    rw [hr.2.2 hs.2]
    exact Nat.mul_pos (by omega) (by omega)
  obtain ⟨e1, finished, he1, _, hff, hbr, htt, hcr⟩ :=
    runBlocks_spec policy hpol gen []
      { initialEngine with
        gameAreaActive := true,
        state := { initialEngine.state with blocks := gen },
        timers := [Timer.startTrial] } rfl (fun _ => ⟨rfl, rfl, rfl⟩) hall
  have hlen : cfg.setSizes.length = gen.length := hf.length_eq
  refine ⟨e1, finished, ?_, ?_, by simpa [initialEngine] using hbr,
    by simpa [initialEngine] using htt, by simpa [initialEngine] using hcr⟩
  · simp only [runExperiment, hstart, Outcome.andThen, hlen]
    exact he1
  · rw [List.forall₂_iff_get] at hf hff ⊢
    refine ⟨hf.1.trans hff.1, fun i h1 h2 => ?_⟩
    have hg1 : i < gen.length := hf.1 ▸ h1
    have ha := hf.2 i h1 hg1
    have hb := hff.2 i hg1 h2
    have hs := hsz _ (List.get_mem _ i h1)
    exact ⟨hb.1.trans ha.1, by rw [hb.2, ha.2.2 hs.2]⟩

theorem blockResults_getElem? (iterations : Nat) :
    ∀ (setSizes : List Nat) (finished : List Block) (n : Nat),
      List.Forall₂ (fun s f => f.setSize = s ∧ f.results.length = s * iterations)
        setSizes finished →
      ∀ b s, setSizes[b]? = some s →
        ∃ r : BlockResult,
          ((finished.enumFrom n).map (fun p => blockResultOf p.1 p.2))[b]? = some r ∧
          r.block = n + b ∧ r.setSize = s ∧ r.trials = s * iterations
  | _, _, _, List.Forall₂.nil, b, s, h => by simp at h
  | s0 :: _, f :: _, n, List.Forall₂.cons hsf _, 0, s, h => by
      simp at h
      subst h
      exact ⟨blockResultOf n f, by simp, rfl, hsf.1, hsf.2⟩
  | _ :: rest, _ :: fin, n, List.Forall₂.cons _ hrest, b + 1, s, h => by
      simp at h
      obtain ⟨r, hr, h1, h2, h3⟩ := blockResults_getElem? iterations rest fin (n + 1) hrest b s h
      exact ⟨r, by simpa using hr, by omega, h2, h3⟩

theorem sum_results_length (iterations : Nat) :
    ∀ (setSizes : List Nat) (finished : List Block),
      List.Forall₂ (fun s f => f.setSize = s ∧ f.results.length = s * iterations)
        setSizes finished →
      (finished.map (fun f => f.results.length)).sum = iterations * setSizes.sum
  | _, _, List.Forall₂.nil => by simp
  | _ :: rest, _ :: fin, List.Forall₂.cons hsf hrest => by
      simp [sum_results_length iterations rest fin hrest, hsf.2, Nat.mul_add, Nat.mul_comm]

/-- C7: for a non-empty list of set sizes from 2 to 6 and at least one iteration per
stimulus, the experiment run in the normal order (any draws, any actions 1, 2 or 3) ends
normally; `blockResults` then has one entry per configured block, in block order, entry `b`
having `block = b`, `setSize = setSizes[b]` and `trials = setSizes[b] * iterations`, and
`totalTrials` is `iterations` times the sum of the set sizes.  For the set sizes `[2, 3]`
these are two entries and `2 * iterations + 3 * iterations` trials. -/
theorem runExperiment_blockResults (cfg : Config) (rng : Rng) (policy : Engine → Nat)
    (hv : ValidConfig cfg) (hpol : ∀ e, 1 ≤ policy e ∧ policy e ≤ 3) :
    ∃ e, runExperiment cfg rng policy = Outcome.ok e ∧
      e.state.results.blockResults.length = cfg.setSizes.length ∧
      (∀ b s, cfg.setSizes[b]? = some s →
        ∃ r : BlockResult, e.state.results.blockResults[b]? = some r ∧ r.block = b ∧
          r.setSize = s ∧ r.trials = s * cfg.iterationsPerStimulus) ∧
      e.state.results.totalTrials = cfg.iterationsPerStimulus * cfg.setSizes.sum ∧
      (cfg.setSizes = [2, 3] →
        e.state.results.blockResults.length = 2 ∧
        e.state.results.totalTrials
          = 2 * cfg.iterationsPerStimulus + 3 * cfg.iterationsPerStimulus) := by
  obtain ⟨e, finished, he, hf, hbr, htt, _⟩ := runExperiment_spec cfg rng policy hv hpol
  have hlen : e.state.results.blockResults.length = cfg.setSizes.length := by
    rw [hbr]
    simp [hf.length_eq]
  have htot : e.state.results.totalTrials = cfg.iterationsPerStimulus * cfg.setSizes.sum := by
    rw [htt]
    exact sum_results_length _ _ _ hf
  refine ⟨e, he, hlen, ?_, htot, ?_⟩
  · intro b s hs
    obtain ⟨r, hr, h1, h2, h3⟩ := blockResults_getElem? _ _ _ 0 hf b s hs
    exact ⟨r, by rw [hbr]; exact hr, by omega, h2, h3⟩
  · intro h
    rw [hlen, htot, h]
    refine ⟨rfl, ?_⟩
    simp
    ring

theorem results_pos_of_forall₂ (iterations : Nat) (hit : 1 ≤ iterations) :
    ∀ (setSizes : List Nat) (finished : List Block),
      List.Forall₂ (fun s f => f.setSize = s ∧ f.results.length = s * iterations)
        setSizes finished →
      (∀ s ∈ setSizes, 2 ≤ s ∧ s ≤ 6) → ∀ f ∈ finished, 0 < f.results.length
  | _, _, List.Forall₂.nil, _, f, hf => by simp at hf
  | s :: rest, f0 :: fin, List.Forall₂.cons hsf hrest, hsz, f, hf => by
      rcases List.mem_cons.1 hf with h | h
      · subst h
        rw [hsf.2]
        exact Nat.mul_pos (by have := (hsz s (by simp)).1; omega) (by omega)
      · exact results_pos_of_forall₂ iterations hit rest fin hrest
          (fun s hs => hsz s (List.mem_cons_of_mem _ hs)) f h

theorem correctCount_le (rs : List Response) : correctCount rs ≤ rs.length :=
  List.length_filter_le _ _

theorem weightedAccuracy_blockResultOf (n : Nat) (f : Block) (h : 0 < f.results.length) :
    |(blockResultOf n f).weightedAccuracy - (correctCount f.results : ℚ)|
      ≤ (correctCount f.results : ℚ) / 2 ^ 53 ∧
    (blockResultOf n f).accuracy
      = JSNum.fin (doubleQuotient (correctCount f.results) f.results.length) := by
  have ha : (blockResultOf n f).accuracy
      = JSNum.fin (doubleQuotient (correctCount f.results) f.results.length) := by
    simp only [blockResultOf]
    exact jsDiv_of_pos _ _ h
  refine ⟨?_, ha⟩
  simp only [BlockResult.weightedAccuracy, ha]
  simp only [blockResultOf]
  exact doubleQuotient_error _ _ h (correctCount_le _)

theorem blockResults_sums :
    ∀ (finished : List Block) (n : Nat), (∀ f ∈ finished, 0 < f.results.length) →
      (((finished.enumFrom n).map (fun p => blockResultOf p.1 p.2)).map
        (fun r => r.trials)).sum = (finished.map (fun f => f.results.length)).sum ∧
      |(((finished.enumFrom n).map (fun p => blockResultOf p.1 p.2)).map
        BlockResult.weightedAccuracy).sum
          - (((finished.map (fun f => correctCount f.results)).sum : Nat) : ℚ)|
        ≤ (((finished.map (fun f => correctCount f.results)).sum : Nat) : ℚ) / 2 ^ 53 ∧
      ∀ r ∈ (finished.enumFrom n).map (fun p => blockResultOf p.1 p.2),
        ∃ q, r.accuracy = JSNum.fin q
  | [], _, _ => by simp
  | f :: fin, n, hpos => by
      obtain ⟨h1, h2, h3⟩ := blockResults_sums fin (n + 1)
        (fun g hg => hpos g (List.mem_cons_of_mem _ hg))
      obtain ⟨hw, ha⟩ := weightedAccuracy_blockResultOf n f (hpos f (by simp))
      refine ⟨?_, ?_, ?_⟩
      · simp only [List.enumFrom_cons, List.map_cons, List.sum_cons, h1]
        rfl
      · simp only [List.enumFrom_cons, List.map_cons, List.sum_cons, Nat.cast_add]
        rw [abs_le] at hw h2 ⊢
        constructor
        · linarith [hw.1, h2.1]
        · linarith [hw.2, h2.2]
      · intro r hr
        simp only [List.enumFrom_cons, List.map_cons, List.mem_cons] at hr
        rcases hr with hr | hr
        · exact ⟨_, hr ▸ ha⟩
        · exact h3 r hr

theorem sum_correctCount_le :
    ∀ (finished : List Block), (finished.map (fun f => correctCount f.results)).sum
      ≤ (finished.map (fun f => f.results.length)).sum
  | [] => by simp
  | f :: fin => by
      have h := sum_correctCount_le fin
      have h0 := correctCount_le f.results
      simp only [List.map_cons, List.sum_cons]
      omega

/-- C6, evaluation at a counterexample: one block of five stimuli with ten iterations, every
draw 0 (so every correct action is 1), the key 1 pressed on the first seven trials and the
key 2 on the other 43.  The run ends with `totalTrials = 50`, `correctResponses = 7` and one
block result with `trials = 50` whose stored accuracy is the double nearest to 7/50,
`5044031582654956 / 2^55`; the product `accuracy * trials` is `7 + 3 / 2^52`, not 7. -/
theorem stored_accuracy_is_rounded :
    ValidConfig ⟨[5], 10⟩ ∧
    (∀ e, 1 ≤ sevenCorrect e ∧ sevenCorrect e ≤ 3) ∧
    ∃ e, runExperiment ⟨[5], 10⟩ rngZero sevenCorrect = Outcome.ok e ∧
      e.state.results.totalTrials = 50 ∧
      e.state.results.correctResponses = 7 ∧
      e.state.results.blockResults
        = [{ block := 0, setSize := 5, accuracy := JSNum.fin (5044031582654956 / 2 ^ 55),
             trials := 50 }] ∧
      (e.state.results.blockResults.map BlockResult.weightedAccuracy).sum = 7 + 3 / 2 ^ 52 ∧
      (e.state.results.blockResults.map BlockResult.weightedAccuracy).sum
        ≠ (e.state.results.correctResponses : ℚ) := by
  have hv : ValidConfig ⟨[5], 10⟩ := by decide
  have hpol : ∀ e, 1 ≤ sevenCorrect e ∧ sevenCorrect e ≤ 3 := by
    intro e
    unfold sevenCorrect
    split <;> decide
  refine ⟨hv, hpol, ?_⟩
  obtain ⟨e, finished, he, hf, hbr, htt, hcr⟩ :=
    runExperiment_spec ⟨[5], 10⟩ rngZero sevenCorrect hv hpol
  have hc : (runExperiment ⟨[5], 10⟩ rngZero sevenCorrect).engine.state.results.correctResponses
      = 7 := by
    set_option maxRecDepth 100000 in decide
  rw [he] at hc
  simp only [Outcome.engine] at hc
  obtain ⟨f, hfin, hs, hl⟩ : ∃ f, finished = [f] ∧ f.setSize = 5 ∧ f.results.length = 50 := by
    cases hf with
    | cons h1 h2 =>
      cases h2
      exact ⟨_, rfl, h1.1, h1.2⟩
  subst hfin
  have ht : e.state.results.totalTrials = 50 := by
    rw [htt]
    simpa using hl
  have hcc : correctCount f.results = 7 := by
    rw [hc] at hcr
    simpa using hcr.symm
  have hq : doubleQuotient 7 50 = 5044031582654956 / 2 ^ 55 := by
    have hp : doubleParts 7 50 = (5044031582654956, 0, 55) := by decide
    simp only [doubleQuotient, hp]
    norm_num
  have hres : e.state.results.blockResults
      = [{ block := 0, setSize := 5, accuracy := JSNum.fin (5044031582654956 / 2 ^ 55),
           trials := 50 }] := by
    rw [hbr]
    simp only [List.enumFrom_cons, List.enumFrom_nil, List.map_cons, List.map_nil, blockResultOf,
      hs, hl, hcc, jsDiv_of_pos 7 50 (by decide), hq]
  refine ⟨e, he, ht, hc, hres, ?_, ?_⟩
  · rw [hres]
    simp only [List.map_cons, List.map_nil, List.sum_cons, List.sum_nil,
      BlockResult.weightedAccuracy]
    norm_num
  · rw [hres, hc]
    simp only [List.map_cons, List.map_nil, List.sum_cons, List.sum_nil,
      BlockResult.weightedAccuracy]
    norm_num

/-- C6, amended: for a valid configuration, the experiment run in the normal order (any
draws, any actions 1, 2 or 3) ends normally with `totalTrials > 0` and
`correctResponses ≤ totalTrials`; the `trials` of the block results add up to
`totalTrials`; every block accuracy is a finite number; the products `accuracy * trials`,
taken over the rationals from the stored doubles, add up to `correctResponses` up to an
error of at most `correctResponses / 2^53`, so the trial-weighted mean of the block
accuracies differs from `correctResponses / totalTrials` by at most that quotient over
`2^53`; and the overall accuracy is the double nearest to `correctResponses / totalTrials`,
whose product with `totalTrials` differs from `correctResponses` by at most
`correctResponses / 2^53`. -/
theorem runExperiment_accuracy (cfg : Config) (rng : Rng) (policy : Engine → Nat)
    (hv : ValidConfig cfg) (hpol : ∀ e, 1 ≤ policy e ∧ policy e ≤ 3) :
    ∃ e, runExperiment cfg rng policy = Outcome.ok e ∧
      0 < e.state.results.totalTrials ∧
      e.state.results.correctResponses ≤ e.state.results.totalTrials ∧
      (e.state.results.blockResults.map (fun r => r.trials)).sum
        = e.state.results.totalTrials ∧
      (∀ r ∈ e.state.results.blockResults, ∃ q, r.accuracy = JSNum.fin q) ∧
      |(e.state.results.blockResults.map BlockResult.weightedAccuracy).sum
          - (e.state.results.correctResponses : ℚ)|
        ≤ (e.state.results.correctResponses : ℚ) / 2 ^ 53 ∧
      |(e.state.results.blockResults.map BlockResult.weightedAccuracy).sum
            / (e.state.results.totalTrials : ℚ)
          - (e.state.results.correctResponses : ℚ) / (e.state.results.totalTrials : ℚ)|
        ≤ (e.state.results.correctResponses : ℚ) / (e.state.results.totalTrials : ℚ) / 2 ^ 53 ∧
      overallAccuracy e = JSNum.fin
        (doubleQuotient e.state.results.correctResponses e.state.results.totalTrials) ∧
      |doubleQuotient e.state.results.correctResponses e.state.results.totalTrials
            * (e.state.results.totalTrials : ℚ)
          - (e.state.results.correctResponses : ℚ)|
        ≤ (e.state.results.correctResponses : ℚ) / 2 ^ 53 := by
  obtain ⟨e, finished, he, hf, hbr, htt, hcr⟩ := runExperiment_spec cfg rng policy hv hpol
  obtain ⟨hne, hsz, hit⟩ := hv
  have hpos := results_pos_of_forall₂ _ hit _ _ hf hsz
  obtain ⟨h1, h2, h3⟩ := blockResults_sums finished 0 hpos
  have htot : 0 < e.state.results.totalTrials := by
    rw [htt, sum_results_length _ _ _ hf]
    refine Nat.mul_pos (by omega) ?_
    cases hs : cfg.setSizes with
    | nil => exact absurd hs hne
    | cons s rest =>
      have := (hsz s (by simp [hs])).1
      simp
      omega
  have hle : e.state.results.correctResponses ≤ e.state.results.totalTrials := by
    rw [htt, hcr]
    exact sum_correctCount_le finished
  have hsum : (e.state.results.blockResults.map (fun r => r.trials)).sum
      = e.state.results.totalTrials := by rw [hbr, htt]; exact h1
  have hw : |(e.state.results.blockResults.map BlockResult.weightedAccuracy).sum
      - (e.state.results.correctResponses : ℚ)|
        ≤ (e.state.results.correctResponses : ℚ) / 2 ^ 53 := by rw [hbr, hcr]; exact h2
  have hT : (0 : ℚ) < (e.state.results.totalTrials : ℚ) := by exact_mod_cast htot
  refine ⟨e, he, htot, hle, hsum, by rw [hbr]; exact h3, hw, ?_,
    jsDiv_of_pos _ _ htot, doubleQuotient_error _ _ htot hle⟩
  rw [← sub_div, abs_div, abs_of_pos hT, div_right_comm]
  exact div_le_div_of_nonneg_right hw (le_of_lt hT)

/-! ### Reachable states -/

theorem reachable_applyEvents (cfg : Config) (rng : Rng) :
    ∀ (evs : List Event) (e : Engine), Reachable cfg rng e → allEnabled evs e = true →
      Reachable cfg rng (applyEvents evs e)
  | [], _, h, _ => h
  | ev :: rest, e, h, hen => by
      simp only [allEnabled, Bool.and_eq_true, decide_eq_true_eq] at hen
      exact reachable_applyEvents cfg rng rest _ (Reachable.step ev h hen.1) hen.2

/-- C8, evaluation at the failing input: with three blocks of two stimuli, after the first
block the inter-block button is clicked twice, so that two `startTrial` timers are pending
for block 2; a response after each of them records trial 0 of block 2 twice.  The reached
state has a block whose second response has `trial = 0`, block 1 was never run. -/
theorem reachable_trial_scored_twice :
    ValidConfig threeBlocks ∧
    Reachable threeBlocks rngZero
      (applyEvents doubleClickTrace
        (confirmConfiguration threeBlocks rngZero 0 initialEngine).engine) ∧
    ((applyEvents doubleClickTrace
        (confirmConfiguration threeBlocks rngZero 0 initialEngine).engine).state.blocks.map
      (fun b => b.results.map (fun r => (r.trial, r.response)))
      = [[(0, 1), (1, 1)], [], [(0, 1), (0, 2)]]) ∧
    ∃ block ∈ (applyEvents doubleClickTrace
        (confirmConfiguration threeBlocks rngZero 0 initialEngine).engine).state.blocks,
      ¬ resultsInOrder block := by
  refine ⟨by decide, reachable_applyEvents _ _ _ _ Reachable.setup (by decide), by decide, ?_⟩
  have hb : ∃ b, (applyEvents doubleClickTrace
      (confirmConfiguration threeBlocks rngZero 0 initialEngine).engine).state.blocks[2]?
        = some b ∧ (b.results.map (fun r => r.trial))[1]? = some 0 := by decide
  obtain ⟨b, hb1, hb2⟩ := hb
  refine ⟨b, List.getElem?_mem hb1, fun h => ?_⟩
  simp only [List.getElem?_map, Option.map_eq_some'] at hb2
  obtain ⟨r, hr, hr0⟩ := hb2
  have := (h.2 1 r hr).1
  omega

/-! ### The theorems at concrete inputs -/

theorem runBlock_perfect_witness :
    (2 ≤ 2 ∧ 2 ≤ 6 ∧ 1 ≤ 2) ∧
    (generateBlocks ⟨[2], 2⟩ rngZero 0 initialEngine).timers = [] ∧
    (generateBlocks ⟨[2], 2⟩ rngZero 0 initialEngine).state.blocks[0]?
      = some (generateBlock rngZero 0 2 0 2).1 ∧
    ∃ e1, (startBlock 0 (generateBlocks ⟨[2], 2⟩ rngZero 0 initialEngine)).andThen
        (runBlock perfectPolicy) = Outcome.ok e1 ∧
      e1.state.results.totalTrials = 0 + 2 * 2 ∧
      e1.state.results.correctResponses = 0 + 2 * 2 :=
  ⟨by decide, rfl, rfl,
    match runBlock_perfect.1 rngZero 0 2 0 2 (generateBlocks ⟨[2], 2⟩ rngZero 0 initialEngine) 0
      (by decide) (by decide) (by decide) rfl rfl with
    | ⟨e1, h, _, _, h3, h4⟩ => ⟨e1, h, h3, h4⟩⟩

theorem runExperiment_accuracy_witness :
    ValidConfig ⟨[2, 3], 2⟩ ∧ (∀ e : Engine, 1 ≤ (fun _ => 1) e ∧ (fun _ => 1) e ≤ 3) ∧
    ∃ e, runExperiment ⟨[2, 3], 2⟩ rngZero (fun _ => 1) = Outcome.ok e ∧
      0 < e.state.results.totalTrials ∧
      |(e.state.results.blockResults.map BlockResult.weightedAccuracy).sum
          - (e.state.results.correctResponses : ℚ)|
        ≤ (e.state.results.correctResponses : ℚ) / 2 ^ 53 :=
  ⟨by decide, fun _ => ⟨by simp, by simp⟩,
    match runExperiment_accuracy ⟨[2, 3], 2⟩ rngZero (fun _ => 1) (by decide)
      (fun _ => ⟨by simp, by simp⟩) with
    | ⟨e, h, h1, _, _, _, h5, _⟩ => ⟨e, h, h1, h5⟩⟩

theorem runExperiment_blockResults_witness :
    ValidConfig ⟨[2, 3], 10⟩ ∧ (⟨[2, 3], 10⟩ : Config).setSizes = [2, 3] ∧
    ∃ e, runExperiment ⟨[2, 3], 10⟩ rngMiddleRepeat (fun _ => 3) = Outcome.ok e ∧
      e.state.results.blockResults.length = 2 ∧
      e.state.results.totalTrials = 2 * 10 + 3 * 10 :=
  ⟨by decide, rfl,
    match runExperiment_blockResults ⟨[2, 3], 10⟩ rngMiddleRepeat (fun _ => 3) (by decide)
      (fun _ => ⟨by simp, by simp⟩) with
    | ⟨e, h, _, _, _, h4⟩ => ⟨e, h, (h4 rfl).1, (h4 rfl).2⟩⟩

/-! ### Stimulus assignment -/

theorem stimulusCategories_nodup (blockIndex : Nat) :
    (stimulusCategories.getD (blockIndex % stimulusCategories.length) []).Nodup := by
  have h : ∀ i, i < 6 → (stimulusCategories.getD i []).Nodup := by decide
  exact h _ (Nat.mod_lt _ (by decide))

/-- C11: for every set size and every stream of draws, `generateCorrectActions(setSize)`
returns a mapping with exactly the keys `0 .. setSize-1` (a list of length `setSize`: key
`i` is present if and only if `i < setSize`), every value of the mapping is 1, 2 or 3, and
the call consumes `setSize` draws. -/
theorem generateCorrectActions_spec (rng : Rng) (k setSize : Nat) :
    (generateCorrectActions rng k setSize).1.length = setSize ∧
    (∀ i, i < setSize ↔ ((generateCorrectActions rng k setSize).1[i]?).isSome = true) ∧
    (∀ i, i < setSize → ∃ a, (generateCorrectActions rng k setSize).1[i]? = some a ∧
      (a = 1 ∨ a = 2 ∨ a = 3)) ∧
    (∀ a ∈ (generateCorrectActions rng k setSize).1, a = 1 ∨ a = 2 ∨ a = 3) ∧
    (generateCorrectActions rng k setSize).2 = k + setSize := by
  refine ⟨by simp [generateCorrectActions], fun i => ?_, fun i hi => ?_, fun a ha => ?_, rfl⟩
  · simp only [generateCorrectActions, List.getElem?_map, Option.isSome_map']
    by_cases hi : i < setSize
    · simp [List.getElem?_range hi, hi]
    · have hn : (List.range setSize)[i]? = none := by
        rw [List.getElem?_eq_none_iff]
        simpa using hi
      simp [hn, hi]
  · refine ⟨(rng (k + i)).floorMul 3 + 1, by simp [generateCorrectActions, hi], ?_⟩
    have := Draw.floorMul_lt (rng (k + i)) (n := 3) (by decide)
    omega
  · simp only [generateCorrectActions, List.mem_map, List.mem_range] at ha
    obtain ⟨i, _, rfl⟩ := ha
    have := Draw.floorMul_lt (rng (k + i)) (n := 3) (by decide)
    omega

theorem generateCorrectActions_spec_witness :
    (2 < 4 ↔ ((generateCorrectActions rngMiddleRepeat 0 4).1[2]?).isSome = true) ∧
    (generateCorrectActions rngMiddleRepeat 0 4).1 = [2, 3, 2, 1] :=
  ⟨(generateCorrectActions_spec rngMiddleRepeat 0 4).2.1 2, by decide⟩

/-- C12: for every block index and every set size from 0 to 6, `selectStimuli` returns the
first `setSize` symbols of the category at index `blockIndex mod 6` of
`config.stimulusCategories`; the result has length `setSize` and no duplicate. -/
theorem selectStimuli_spec (blockIndex setSize : Nat) (h : setSize ≤ 6) :
    ∃ category, stimulusCategories[blockIndex % 6]? = some category ∧
      selectStimuli blockIndex setSize = category.take setSize ∧
      (selectStimuli blockIndex setSize).length = setSize ∧
      (selectStimuli blockIndex setSize).Nodup := by
  have hlen : stimulusCategories.length = 6 := rfl
  have hlt : blockIndex % 6 < stimulusCategories.length := by
    rw [hlen]
    exact Nat.mod_lt _ (by decide)
  refine ⟨stimulusCategories[blockIndex % 6], List.getElem?_eq_getElem hlt, ?_,
    selectStimuli_length blockIndex setSize h, ?_⟩
  · simp [selectStimuli, hlen, List.getD_eq_getElem?_getD, List.getElem?_eq_getElem hlt]
  · have hn := stimulusCategories_nodup blockIndex
    exact List.Nodup.sublist (List.take_sublist _ _) hn

theorem selectStimuli_spec_witness :
    4 ≤ 6 ∧ selectStimuli 7 4 = ["🍎", "🍊", "🍋", "🍌"] ∧ (selectStimuli 7 4).Nodup :=
  ⟨by decide, by decide,
    match selectStimuli_spec 7 4 (by decide) with
    | ⟨_, _, _, _, h⟩ => h⟩

/-! ### The trials of the generated sequence -/

theorem mem_baseSequence (stimuli : List String) (iterations : Nat) (t : Trial) :
    t ∈ baseSequence stimuli iterations ↔
      stimuli[t.stimulusIndex]? = some t.stimulus ∧ 1 ≤ t.iteration ∧
        t.iteration ≤ iterations := by
  simp only [baseSequence, List.mem_flatMap, List.mem_range, List.mem_map,
    List.mem_enum_iff_getElem?]
  constructor
  · rintro ⟨iter, hiter, p, hp, rfl⟩
    exact ⟨hp, by simp, by simp; omega⟩
  · rintro ⟨hs, h1, h2⟩
    refine ⟨t.iteration - 1, by omega, (t.stimulusIndex, t.stimulus), hs, ?_⟩
    cases t with
    | mk s st it =>
      simp only [Trial.mk.injEq, true_and]
      simp only at h1
      omega

theorem countP_pair_enum (stimuli : List String) (s it m : Nat) (hs : s < stimuli.length) :
    (stimuli.enum.map (fun p =>
        ({ stimulusIndex := p.1, stimulus := p.2, iteration := m } : Trial))).countP
      (fun t => t.stimulusIndex == s && t.iteration == it) = if m = it then 1 else 0 := by
  rw [List.countP_map]
  by_cases hm : m = it
  · have hf : ((fun t : Trial => t.stimulusIndex == s && t.iteration == it) ∘
        fun p : Nat × String =>
          ({ stimulusIndex := p.1, stimulus := p.2, iteration := m } : Trial))
        = ((fun i : Nat => i == s) ∘ Prod.fst) := by
      funext p
      simp [hm]
    rw [hf, ← List.countP_map, List.enum_map_fst, ← List.count_eq_countP]
    simp [hm, List.count_eq_one_of_mem (List.nodup_range _) (List.mem_range.2 hs)]
  · have hf : ((fun t : Trial => t.stimulusIndex == s && t.iteration == it) ∘
        fun p : Nat × String =>
          ({ stimulusIndex := p.1, stimulus := p.2, iteration := m } : Trial))
        = fun _ => false := by
      funext p
      simp [hm]
    rw [hf]
    simp [hm]

theorem countP_pair_baseSequence (stimuli : List String) (s it : Nat)
    (hs : s < stimuli.length) :
    ∀ iterations, (baseSequence stimuli iterations).countP
      (fun t => t.stimulusIndex == s && t.iteration == it)
        = if 1 ≤ it ∧ it ≤ iterations then 1 else 0
  | 0 => by
      have h : ¬ (1 ≤ it ∧ it ≤ 0) := by omega
      rw [if_neg h]
      simp [baseSequence]
  | n + 1 => by
      have ih := countP_pair_baseSequence stimuli s it hs n
      unfold baseSequence at ih ⊢
      rw [List.range_succ, List.flatMap_append, List.countP_append, ih]
      simp only [List.flatMap_cons, List.flatMap_nil, List.append_nil]
      rw [countP_pair_enum stimuli s it (n + 1) hs]
      by_cases h1 : 1 ≤ it ∧ it ≤ n
      · have h2 : ¬ (n + 1 = it) := by omega
        have h3 : 1 ≤ it ∧ it ≤ n + 1 := by omega
        rw [if_pos h1, if_neg h2, if_pos h3]
      · by_cases h2 : n + 1 = it
        · have h3 : 1 ≤ it ∧ it ≤ n + 1 := by omega
          rw [if_neg h1, if_pos h2, if_pos h3]
        · have h3 : ¬ (1 ≤ it ∧ it ≤ n + 1) := by omega
          rw [if_neg h1, if_neg h2, if_neg h3]

/-- C15: for every stimulus list, at least one iteration and every stream of draws, the
sequence returned by `generateTrialSequence` is a permutation of the base sequence; every
pair of a stimulus index `s < setSize` and an iteration `k` with `1 ≤ k ≤ iterations` is the
pair of exactly one trial, and every trial carries the stimulus at its index:
`trial.stimulus == stimuli[trial.stimulusIndex]`. -/
theorem generateTrialSequence_pairs (rng : Rng) (k : Nat) (stimuli : List String)
    (iterations : Nat) (_hiter : 1 ≤ iterations) :
    (generateTrialSequence rng k stimuli iterations).1.Perm (baseSequence stimuli iterations) ∧
    (∀ s it, s < stimuli.length → 1 ≤ it → it ≤ iterations →
      (generateTrialSequence rng k stimuli iterations).1.countP
        (fun t => t.stimulusIndex == s && t.iteration == it) = 1) ∧
    (∀ t ∈ (generateTrialSequence rng k stimuli iterations).1,
      stimuli[t.stimulusIndex]? = some t.stimulus ∧ t.stimulusIndex < stimuli.length ∧
        1 ≤ t.iteration ∧ t.iteration ≤ iterations) := by
  have hp := generateTrialSequence_perm rng k stimuli iterations
  refine ⟨hp, fun s it hs h1 h2 => ?_, fun t ht => ?_⟩
  · rw [hp.countP_eq, countP_pair_baseSequence stimuli s it hs iterations]
    simp [h1, h2]
  · have hm := (mem_baseSequence stimuli iterations t).1 (hp.mem_iff.1 ht)
    refine ⟨hm.1, ?_, hm.2.1, hm.2.2⟩
    have := hm.1
    rw [List.getElem?_eq_some_iff] at this
    exact this.1

theorem generateTrialSequence_pairs_witness :
    1 ≤ 2 ∧ 1 < (selectStimuli 0 3).length ∧
    (generateTrialSequence rngMiddleRepeat 0 (selectStimuli 0 3) 2).1.countP
      (fun t => t.stimulusIndex == 1 && t.iteration == 2) = 1 :=
  ⟨by decide, by decide,
    (generateTrialSequence_pairs rngMiddleRepeat 0 (selectStimuli 0 3) 2 (by decide)).2.1 1 2
      (by decide) (by decide) (by decide)⟩

/-! ### The repair loop -/

theorem swapAllowed_succ_succ (xs : List Trial) (i : Nat) : swapAllowed xs i (i + 2) = false := by
  simp [swapAllowed]

theorem findSwapIndex_some (xs : List Trial) (i j : Nat) (h : findSwapIndex xs i = some j) :
    i + 3 ≤ j ∧ j < xs.length ∧ swapAllowed xs i j = true := by
  unfold findSwapIndex at h
  have hm := List.mem_of_find?_eq_some h
  have hp := List.find?_some h
  rw [List.mem_range'_1] at hm
  have hne : j ≠ i + 2 := by
    intro he
    rw [he, swapAllowed_succ_succ] at hp
    exact absurd hp (by decide)
  obtain ⟨h1, h2⟩ := hm
  refine ⟨by omega, by omega, hp⟩

theorem stimAt_swap (xs : List Trial) (a b p : Nat) (ha : a < xs.length) (hb : b < xs.length) :
    stimAt (swap xs a b) p
      = if p = b then stimAt xs a else if p = a then stimAt xs b else stimAt xs p := by
  simp only [swap, List.getElem?_eq_getElem ha, List.getElem?_eq_getElem hb, stimAt,
    List.getElem?_set]
  by_cases h1 : p = b
  · subst h1
    simp [hb]
  · by_cases h2 : p = a
    · subst h2
      simp [h1, ha, Ne.symm h1]
    · simp [h1, h2, Ne.symm h1, Ne.symm h2]

theorem countP_lt_countP {α : Type} (p q : α → Bool) :
    ∀ (l : List α), (∀ x ∈ l, p x = true → q x = true) →
      (∃ x ∈ l, q x = true ∧ p x = false) → l.countP p < l.countP q
  | [], _, h => by
      obtain ⟨x, hx, _⟩ := h
      simp at hx
  | a :: l, hpq, hex => by
      have hle : l.countP p ≤ l.countP q :=
        List.countP_mono_left (fun x hx => hpq x (List.mem_cons_of_mem _ hx))
      obtain ⟨x, hx, hqx, hpx⟩ := hex
      rcases List.mem_cons.1 hx with rfl | hxl
      · simp only [List.countP_cons, hqx, hpx]
        simp
        omega
      · have ih := countP_lt_countP p q l (fun y hy => hpq y (List.mem_cons_of_mem _ hy))
          ⟨x, hxl, hqx, hpx⟩
        have ha := hpq a (List.mem_cons_self _ _)
        simp only [List.countP_cons]
        cases hpa : p a
        · simp
          omega
        · simp [ha hpa]
          omega

theorem repeatAt_swap (xs : List Trial) (i j : Nat)
    (hrep : (stimAt xs i == stimAt xs (i + 1)) = true) (hfind : findSwapIndex xs i = some j) :
    repeatAt (swap xs (i + 1) j) i = false ∧
    repeatAt (swap xs (i + 1) j) (i + 1) = false ∧
    repeatAt (swap xs (i + 1) j) (j - 1) = false ∧
    repeatAt (swap xs (i + 1) j) j = false ∧
    ∀ p, p ≠ i → p ≠ i + 1 → p ≠ j - 1 → p ≠ j →
      repeatAt (swap xs (i + 1) j) p = repeatAt xs p := by
  obtain ⟨hj3, hjl, hall⟩ := findSwapIndex_some xs i j hfind
  have hi1 : i + 1 < xs.length := by omega
  simp only [swapAllowed, Bool.and_eq_true, Bool.not_eq_true', Bool.and_eq_false_imp,
    decide_eq_true_eq] at hall
  obtain ⟨⟨⟨hbefore, hafter⟩, hati⟩, hati2⟩ := hall
  have hb := hbefore (by omega)
  have h2 := hati2 (by omega)
  have hst : ∀ p, stimAt (swap xs (i + 1) j) p
      = if p = j then stimAt xs (i + 1) else if p = i + 1 then stimAt xs j else stimAt xs p :=
    fun p => stimAt_swap xs (i + 1) j p hi1 hjl
  have hrep' : stimAt xs i = stimAt xs (i + 1) := by simpa using hrep
  refine ⟨?_, ?_, ?_, ?_, ?_⟩
  · simp only [repeatAt, hst, swap_length]
    have e1 : ¬ (i = j) := by omega
    have e2 : ¬ (i = i + 1) := by omega
    have e3 : ¬ (i + 1 = j) := by omega
    simp only [e1, e2, e3, if_false, if_true]
    rw [Bool.and_eq_false_imp]
    intro _
    rw [beq_eq_false_iff_ne] at hati ⊢
    exact fun h => hati h.symm
  · simp only [repeatAt, hst, swap_length]
    have e1 : ¬ (i + 1 = j) := by omega
    have e2 : ¬ (i + 1 + 1 = j) := by omega
    have e3 : ¬ (i + 1 + 1 = i + 1) := by omega
    simp only [e1, e2, e3, if_false, if_true]
    rw [Bool.and_eq_false_imp]
    intro _
    exact h2
  · simp only [repeatAt, hst, swap_length]
    have e1 : ¬ (j - 1 = j) := by omega
    have e2 : ¬ (j - 1 = i + 1) := by omega
    have e3 : j - 1 + 1 = j := by omega
    simp only [e1, e2, e3, if_false, if_true]
    rw [Bool.and_eq_false_imp]
    intro _
    exact hb
  · simp only [repeatAt, hst, swap_length]
    have e1 : ¬ (j + 1 = j) := by omega
    have e2 : ¬ (j + 1 = i + 1) := by omega
    simp only [e1, e2, if_false, if_true]
    rw [Bool.and_eq_false_imp]
    intro hlt
    rw [beq_eq_false_iff_ne] at hafter ⊢
    have := hafter (by simpa using hlt)
    exact fun h => this h.symm
  · intro p h1 h2' h3 h4
    simp only [repeatAt, hst, swap_length]
    have e1 : ¬ (p + 1 = j) := by omega
    have e2 : ¬ (p + 1 = i + 1) := by omega
    simp only [h4, h2', e1, e2, if_false]

theorem adjacentRepeats_swap_lt (xs : List Trial) (i j : Nat)
    (hrep : (stimAt xs i == stimAt xs (i + 1)) = true) (hfind : findSwapIndex xs i = some j) :
    adjacentRepeats (swap xs (i + 1) j) < adjacentRepeats xs := by
  obtain ⟨hj3, hjl, _⟩ := findSwapIndex_some xs i j hfind
  obtain ⟨h1, h2, h3, h4, hother⟩ := repeatAt_swap xs i j hrep hfind
  unfold adjacentRepeats
  rw [swap_length]
  apply countP_lt_countP
  · intro p _ hp
    by_cases e1 : p = i
    · rw [e1, h1] at hp
      exact absurd hp (by decide)
    by_cases e2 : p = i + 1
    · rw [e2, h2] at hp
      exact absurd hp (by decide)
    by_cases e3 : p = j - 1
    · rw [e3, h3] at hp
      exact absurd hp (by decide)
    by_cases e4 : p = j
    · rw [e4, h4] at hp
      exact absurd hp (by decide)
    rw [hother p e1 e2 e3 e4] at hp
    exact hp
  · refine ⟨i, List.mem_range.2 (by omega), ?_, h1⟩
    simp only [repeatAt, Bool.and_eq_true, decide_eq_true_eq]
    exact ⟨by omega, hrep⟩

theorem repairScan_adjacentRepeats_le :
    ∀ (n i : Nat) (xs : List Trial) (b : Bool),
      adjacentRepeats (repairScan n i xs b).1 ≤ adjacentRepeats xs
  | 0, _, _, _ => Nat.le_refl _
  | n + 1, i, xs, b => by
      simp only [repairScan]
      split
      · rename_i hrep
        split
        · rename_i j hfind
          exact Nat.le_trans (repairScan_adjacentRepeats_le n (i + 1) _ true)
            (Nat.le_of_lt (adjacentRepeats_swap_lt xs i j hrep hfind))
        · exact repairScan_adjacentRepeats_le n (i + 1) _ true
      · exact repairScan_adjacentRepeats_le n (i + 1) _ b

theorem repairLoop_adjacentRepeats_le :
    ∀ (attempts : Nat) (xs : List Trial),
      adjacentRepeats (repairLoop attempts xs) ≤ adjacentRepeats xs
  | 0, _ => Nat.le_refl _
  | attempts + 1, xs => by
      have h : adjacentRepeats (repairPass xs).1 ≤ adjacentRepeats xs :=
        repairScan_adjacentRepeats_le _ _ _ _
      simp only [repairLoop]
      split
      · exact Nat.le_trans (repairLoop_adjacentRepeats_le attempts _) h
      · exact h

theorem adjacentRepeats_eq_zero_iff (xs : List Trial) :
    adjacentRepeats xs = 0 ↔ noAdjacentRepeat xs := by
  unfold adjacentRepeats
  rw [List.countP_eq_zero]
  constructor
  · intro h
    unfold noAdjacentRepeat
    rw [hasAdjacentEqual_eq_false_iff, List.chain'_iff_get]
    intro p hp
    have hlen : (indices xs).length = xs.length := by simp [indices]
    have hp1 : p + 1 < xs.length := by omega
    have hr := h p (List.mem_range.2 (by omega))
    simp only [repeatAt, hp1, decide_True, Bool.true_and, Bool.not_eq_true,
      stimAt_of_lt xs p (by omega), stimAt_of_lt xs (p + 1) hp1] at hr
    simp only [indices, List.get_eq_getElem, List.getElem_map]
    simpa using hr
  · intro h p hp
    rw [List.mem_range] at hp
    simp only [repeatAt, Bool.and_eq_true, decide_eq_true_eq, not_and, Bool.not_eq_true]
    intro hp1
    exact noAdjacentRepeat_stimAt xs h p hp1

/-- C14: for every array, a swap performed by the repair loop (at a position `i` where
`shuffled[i]` and `shuffled[i + 1]` have the same `stimulusIndex`, with the position found
by the search) strictly decreases the number of adjacent repeats: the repeat at `(i, i+1)`
is gone and no pair that was not a repeat becomes one.  Hence the sequence returned by
`shuffleWithConstraints` never has more adjacent repeats than the sequence left by the
Fisher-Yates step, and a sequence without adjacent repeats is returned unchanged. -/
theorem repair_never_adds_repeats :
    (∀ (xs : List Trial) (i j : Nat), (stimAt xs i == stimAt xs (i + 1)) = true →
      findSwapIndex xs i = some j →
      adjacentRepeats (swap xs (i + 1) j) < adjacentRepeats xs ∧
      repeatAt (swap xs (i + 1) j) i = false ∧
      ∀ p, repeatAt (swap xs (i + 1) j) p = true → repeatAt xs p = true) ∧
    (∀ (rng : Rng) (k : Nat) (arr : List Trial),
      adjacentRepeats (shuffleWithConstraints rng k arr).1
        ≤ adjacentRepeats (fisherYates rng (arr.length - 1) k arr).1) ∧
    (∀ (rng : Rng) (k : Nat) (arr : List Trial),
      noAdjacentRepeat (fisherYates rng (arr.length - 1) k arr).1 →
      (shuffleWithConstraints rng k arr).1 = (fisherYates rng (arr.length - 1) k arr).1) := by
  refine ⟨fun xs i j hrep hfind => ?_, fun rng k arr => ?_, fun rng k arr h => ?_⟩
  · obtain ⟨h1, h2, h3, h4, hother⟩ := repeatAt_swap xs i j hrep hfind
    refine ⟨adjacentRepeats_swap_lt xs i j hrep hfind, h1, fun p hp => ?_⟩
    by_cases e1 : p = i
    · rw [e1, h1] at hp
      exact absurd hp (by decide)
    by_cases e2 : p = i + 1
    · rw [e2, h2] at hp
      exact absurd hp (by decide)
    by_cases e3 : p = j - 1
    · rw [e3, h3] at hp
      exact absurd hp (by decide)
    by_cases e4 : p = j
    · rw [e4, h4] at hp
      exact absurd hp (by decide)
    rw [hother p e1 e2 e3 e4] at hp
    exact hp
  · exact repairLoop_adjacentRepeats_le 100 _
  · exact repairLoop_of_noAdjacentRepeat _ h 100

theorem repair_never_adds_repeats_witness :
    indices firstRepeatArray = [0, 0, 1, 2, 1, 2] ∧
    (stimAt firstRepeatArray 0 == stimAt firstRepeatArray (0 + 1)) = true ∧
    findSwapIndex firstRepeatArray 0 = some 3 ∧
    adjacentRepeats (swap firstRepeatArray (0 + 1) 3) < adjacentRepeats firstRepeatArray :=
  ⟨by decide, by decide, by decide,
    (repair_never_adds_repeats.1 firstRepeatArray 0 3 (by decide) (by decide)).1⟩

theorem repairScan_last_pair (xs : List Trial)
    (hlast : stimAt xs (xs.length - 2) = stimAt xs (xs.length - 1))
    (hother : ∀ i, i + 2 < xs.length → stimAt xs i ≠ stimAt xs (i + 1)) :
    ∀ (n i : Nat) (b : Bool), i + n + 1 = xs.length → 1 ≤ n →
      repairScan n i xs b = (xs, true)
  | 0, _, _, _, h => absurd h (by omega)
  | n + 1, i, b, hn, _ => by
      simp only [repairScan]
      by_cases hi : i + 2 < xs.length
      · have hne := hother i hi
        have hf : (stimAt xs i == stimAt xs (i + 1)) = false := by
          rw [beq_eq_false_iff_ne]
          exact hne
        rw [hf]
        simp only [Bool.false_eq_true, if_false]
        exact repairScan_last_pair xs hlast hother n (i + 1) b (by omega) (by omega)
      · have hn0 : n = 0 := by omega
        subst hn0
        have h2 : xs.length - 2 = i := by omega
        have h1 : xs.length - 1 = i + 1 := by omega
        rw [h2, h1] at hlast
        have hf : findSwapIndex xs i = none := by
          have hz : xs.length - (i + 2) = 0 := by omega
          simp [findSwapIndex, hz]
        simp [hlast, hf, repairScan]

theorem repairLoop_of_last_pair (xs : List Trial) (hlen : 2 ≤ xs.length)
    (hlast : stimAt xs (xs.length - 2) = stimAt xs (xs.length - 1))
    (hother : ∀ i, i + 2 < xs.length → stimAt xs i ≠ stimAt xs (i + 1)) :
    List.range' (xs.length - 2 + 2) (xs.length - (xs.length - 2 + 2)) = [] ∧
    findSwapIndex xs (xs.length - 2) = none ∧
    repairPass xs = (xs, true) ∧
    (∀ attempts, repairLoop attempts xs = xs) ∧
    ¬ noAdjacentRepeat xs ∧ adjacentRepeats xs = 1 := by
  have hz : xs.length - (xs.length - 2 + 2) = 0 := by omega
  have hpass : repairPass xs = (xs, true) :=
    repairScan_last_pair xs hlast hother (xs.length - 1) 0 false (by omega) (by omega)
  have hno : ¬ noAdjacentRepeat xs := by
    intro h
    have := noAdjacentRepeat_stimAt xs h (xs.length - 2) (by omega)
    have h1 : xs.length - 2 + 1 = xs.length - 1 := by omega
    rw [h1, hlast] at this
    simp at this
  refine ⟨by simp [hz], by simp [findSwapIndex, hz], hpass, fun attempts => ?_, hno, ?_⟩
  · induction attempts with
    | zero => rfl
    | succ n ih => simp [repairLoop, hpass, ih]
  · unfold adjacentRepeats
    have hsplit : List.range xs.length
        = List.range (xs.length - 2) ++ [xs.length - 2, xs.length - 1] := by
      have h2 : xs.length = (xs.length - 2) + 1 + 1 := by omega
      conv_lhs => rw [h2, List.range_succ, List.range_succ]
      simp
      omega
    rw [hsplit, List.countP_append]
    have h0 : (List.range (xs.length - 2)).countP (fun p => repeatAt xs p) = 0 := by
      rw [List.countP_eq_zero]
      intro p hp
      rw [List.mem_range] at hp
      have := hother p (by omega)
      simp only [repeatAt, Bool.and_eq_true, decide_eq_true_eq, not_and, Bool.not_eq_true]
      intro _
      rw [beq_eq_false_iff_ne]
      exact this
    have h1 : xs.length - 2 + 1 = xs.length - 1 := by omega
    have ha : repeatAt xs (xs.length - 2) = true := by
      simp only [repeatAt, h1, hlast, beq_self_eq_true, Bool.and_true, decide_eq_true_eq]
      omega
    have hb : repeatAt xs (xs.length - 1) = false := by
      have : ¬ (xs.length - 1 + 1 < xs.length) := by omega
      simp [repeatAt, this]
    simp [h0, ha, hb]

/-- C18: for every sequence of at least two trials whose only adjacent repeat is at its last
two positions, the search for a swap position at that repeat is over an empty range and
finds nothing; every pass of the repair loop leaves the sequence as it is and reports the
repetition; and after any number of passes (100 in `shuffleWithConstraints`) the sequence is
returned unchanged, still with that repeat.  The repair loop is total: nothing can throw.
Residual repeats occur for every set size from 2 to 6: there are draws for which the
returned sequence of two iterations has an adjacent repeat, and for the set sizes from 3 to 6
draws after which Fisher-Yates leaves a single repeat, at the last two positions, which the
returned sequence keeps. -/
theorem repairLoop_last_pair :
    (∀ xs : List Trial, 2 ≤ xs.length →
      stimAt xs (xs.length - 2) = stimAt xs (xs.length - 1) →
      (∀ i, i + 2 < xs.length → stimAt xs i ≠ stimAt xs (i + 1)) →
      List.range' (xs.length - 2 + 2) (xs.length - (xs.length - 2 + 2)) = [] ∧
      findSwapIndex xs (xs.length - 2) = none ∧
      repairPass xs = (xs, true) ∧
      (∀ attempts, repairLoop attempts xs = xs) ∧
      ¬ noAdjacentRepeat xs ∧ adjacentRepeats xs = 1) ∧
    (∀ setSize, 2 ≤ setSize → setSize ≤ 6 →
      ¬ noAdjacentRepeat
        (generateTrialSequence (rngResidual setSize) 0 (selectStimuli 0 setSize) 2).1) ∧
    (∀ setSize, 3 ≤ setSize → setSize ≤ 6 →
      adjacentRepeats (fisherYates (rngResidual setSize) (2 * setSize - 1) 0
        (baseSequence (selectStimuli 0 setSize) 2)).1 = 1 ∧
      repeatAt (fisherYates (rngResidual setSize) (2 * setSize - 1) 0
        (baseSequence (selectStimuli 0 setSize) 2)).1 (2 * setSize - 2) = true ∧
      (generateTrialSequence (rngResidual setSize) 0 (selectStimuli 0 setSize) 2).1
        = (fisherYates (rngResidual setSize) (2 * setSize - 1) 0
            (baseSequence (selectStimuli 0 setSize) 2)).1) := by
  refine ⟨repairLoop_of_last_pair, fun setSize h2 h6 => ?_, fun setSize h3 h6 => ?_⟩
  · interval_cases setSize <;> decide
  · interval_cases setSize <;> decide

theorem repairLoop_last_pair_witness :
    indices lastRepeatArray = [0, 1, 0, 1, 2, 2] ∧ 2 ≤ lastRepeatArray.length ∧
    (shuffleWithConstraints rngLastRepeat 0 (baseSequence (selectStimuli 0 3) 2)).1
      = lastRepeatArray ∧
    repairLoop 100 lastRepeatArray = lastRepeatArray :=
  ⟨by decide, by decide, by decide,
    (repairLoop_last_pair.1 lastRepeatArray (by decide) (by decide)
      (fun i hi =>
        (by decide : ∀ i, i < 4 → stimAt lastRepeatArray i ≠ stimAt lastRepeatArray (i + 1)) i
          (by have hl : lastRepeatArray.length = 6 := by decide
              omega))).2.2.2.1 100⟩

theorem swapAllowed_eq_swapLeavesNoRepeat (xs : List Trial) (i j : Nat) (hj3 : i + 3 ≤ j)
    (hjl : j < xs.length) :
    swapAllowed xs i j = swapLeavesNoRepeat xs i j := by
  have hi1 : i + 1 < xs.length := by omega
  have hst : ∀ p, stimAt (swap xs (i + 1) j) p
      = if p = j then stimAt xs (i + 1) else if p = i + 1 then stimAt xs j else stimAt xs p :=
    fun p => stimAt_swap xs (i + 1) j p hi1 hjl
  have e1 : ¬ (i = j) := by omega
  have e2 : ¬ (i = i + 1) := by omega
  have e3 : ¬ (i + 1 = j) := by omega
  have e4 : ¬ (i + 1 + 1 = j) := by omega
  have e5 : ¬ (i + 1 + 1 = i + 1) := by omega
  have e6 : ¬ (j - 1 = j) := by omega
  have e7 : ¬ (j - 1 = i + 1) := by omega
  have e8 : j - 1 + 1 = j := by omega
  have e9 : ¬ (j + 1 = j) := by omega
  have e10 : ¬ (j + 1 = i + 1) := by omega
  have b1 : i + 1 < xs.length := hi1
  have b2 : i + 1 + 1 < xs.length := by omega
  have b3 : i + 2 < xs.length := by omega
  have b4 : j > 0 := by omega
  simp only [swapAllowed, swapLeavesNoRepeat, repeatAt, hst, swap_length, e1, e2, e3, e4, e5,
    e6, e7, e8, e9, e10, b1, b2, b3, b4, hjl, if_false, if_true, decide_True, Bool.true_and]
  rw [Bool.eq_iff_iff]
  simp only [Bool.and_eq_true, Bool.not_eq_true', beq_eq_false_iff_ne, ne_eq,
    Bool.and_eq_false_imp, decide_eq_true_eq]
  constructor
  · rintro ⟨⟨⟨h1, h2⟩, h3⟩, h4⟩
    exact ⟨⟨⟨fun h => h3 h.symm, h4⟩, h1⟩, fun hl h => h2 hl h.symm⟩
  · rintro ⟨⟨⟨h1, h2⟩, h3⟩, h4⟩
    exact ⟨⟨⟨h3, fun hl h => h4 hl h.symm⟩, fun h => h1 h.symm⟩, h2⟩

/-- C13, evaluation at the failing input: in the array with the stimulus indices 0, 1, 1, 0
(left by Fisher-Yates for two stimuli, two iterations and the draws 1/2, 3/4, 1/2) the scan
finds the repeat at `i = 1`.  Position `j = 3 = i + 2` is inside the array and swapping
`shuffled[2]` with `shuffled[3]` leaves no adjacent repeat at all, so it is the first
position in the words of the specification; yet the test of the search rejects it, the
search finds no position and no swap is performed.  (By `swapAllowed_succ_succ` the test
rejects `j = i + 2` in every array; by `swapAllowed_eq_swapLeavesNoRepeat` it is the
specification's condition for every later `j`.) -/
theorem findSwapIndex_misses_next_position :
    indices middleRepeatArray = [0, 1, 1, 0] ∧
    (stimAt middleRepeatArray 1 == stimAt middleRepeatArray 2) = true ∧
    swapLeavesNoRepeat middleRepeatArray 1 3 = true ∧
    noAdjacentRepeat (swap middleRepeatArray 2 3) ∧
    specSwapIndex middleRepeatArray 1 = some 3 ∧
    swapAllowed middleRepeatArray 1 3 = false ∧
    findSwapIndex middleRepeatArray 1 = none ∧
    repairLoop 100 middleRepeatArray = middleRepeatArray := by
  decide

/-! ### Configuration editing -/

theorem ConfigEdit.apply_valid (cfg : Config) (ed : ConfigEdit)
    (hv : ValidSetSizes cfg.setSizes) (ha : ed.allowed cfg = true) :
    ∃ cfg1, ed.apply cfg = some cfg1 ∧ ValidSetSizes cfg1.setSizes ∧
      cfg1.iterationsPerStimulus = cfg.iterationsPerStimulus := by
  obtain ⟨hne, hall⟩ := hv
  cases ed with
  | updateSetSize blockIndex newSize =>
    simp only [ConfigEdit.allowed, Bool.and_eq_true, decide_eq_true_eq] at ha
    obtain ⟨⟨hi, h2⟩, h6⟩ := ha
    refine ⟨{ cfg with setSizes := cfg.setSizes.set blockIndex newSize }, ?_, ⟨?_, ?_⟩, rfl⟩
    · simp [ConfigEdit.apply, RLWM.updateSetSize, hi]
    · intro h
      have hl := congrArg List.length h
      simp at hl
      exact hne hl
    · intro s hs
      rcases List.mem_or_eq_of_mem_set hs with h | h
      · exact hall s h
      · subst h
        exact ⟨h2, h6⟩
  | addBlock =>
    refine ⟨RLWM.addBlock cfg, rfl, ⟨by simp [RLWM.addBlock], ?_⟩, rfl⟩
    intro s hs
    simp only [RLWM.addBlock, List.mem_append, List.mem_singleton] at hs
    rcases hs with h | h
    · exact hall s h
    · subst h
      exact ⟨by decide, by decide⟩
  | removeBlock =>
    refine ⟨RLWM.removeBlock cfg, rfl, ?_, ?_⟩
    · unfold RLWM.removeBlock
      split
      · rename_i hlen
        refine ⟨?_, fun s hs => hall s (List.dropLast_subset _ hs)⟩
        intro h
        have hl := congrArg List.length h
        simp at hl
        omega
      · exact ⟨hne, hall⟩
    · unfold RLWM.removeBlock
      split <;> rfl

/-- C19: starting from a configuration whose `setSizes` is non-empty with every entry from 2
to 6, every sequence of calls of `addBlock()`, `removeBlock()` and `updateSetSize(i, s)`
with `i` a position of the array at the time of the call and `s` one of 2, 3, 4, 5, 6 leaves
`setSizes` non-empty with every entry from 2 to 6 (and `iterationsPerStimulus` as it was);
`removeBlock()` on a single block changes nothing. -/
theorem applyEdits_valid :
    (∀ (edits : List ConfigEdit) (cfg : Config), ValidSetSizes cfg.setSizes →
      editsAllowed edits cfg = true →
      ∃ cfg1, applyEdits edits cfg = some cfg1 ∧ ValidSetSizes cfg1.setSizes ∧
        cfg1.iterationsPerStimulus = cfg.iterationsPerStimulus) ∧
    (∀ cfg : Config, cfg.setSizes.length = 1 → removeBlock cfg = cfg) := by
  constructor
  · intro edits
    induction edits with
    | nil => exact fun cfg hv _ => ⟨cfg, rfl, hv, rfl⟩
    | cons ed rest ih =>
      intro cfg hv ha
      simp only [editsAllowed, Bool.and_eq_true] at ha
      obtain ⟨ha1, ha2⟩ := ha
      obtain ⟨cfg1, he, hv1, hi1⟩ := ConfigEdit.apply_valid cfg ed hv ha1
      rw [he] at ha2
      obtain ⟨cfg2, he2, hv2, hi2⟩ := ih cfg1 hv1 ha2
      exact ⟨cfg2, by simp [applyEdits, he, he2], hv2, hi2.trans hi1⟩
  · intro cfg h
    simp [removeBlock, h]

theorem applyEdits_valid_witness :
    ValidSetSizes defaultConfig.setSizes ∧
    editsAllowed [ConfigEdit.removeBlock, ConfigEdit.updateSetSize 4 2, ConfigEdit.addBlock,
      ConfigEdit.updateSetSize 5 6] defaultConfig = true ∧
    applyEdits [ConfigEdit.removeBlock, ConfigEdit.updateSetSize 4 2, ConfigEdit.addBlock,
      ConfigEdit.updateSetSize 5 6] defaultConfig
        = some { setSizes := [2, 3, 4, 5, 2, 6], iterationsPerStimulus := 10 } ∧
    ∃ cfg1, applyEdits [ConfigEdit.removeBlock, ConfigEdit.updateSetSize 4 2,
        ConfigEdit.addBlock, ConfigEdit.updateSetSize 5 6] defaultConfig = some cfg1 ∧
      ValidSetSizes cfg1.setSizes :=
  ⟨by decide, by decide, by decide,
    match applyEdits_valid.1 [ConfigEdit.removeBlock, ConfigEdit.updateSetSize 4 2,
        ConfigEdit.addBlock, ConfigEdit.updateSetSize 5 6] defaultConfig (by decide)
        (by decide) with
    | ⟨cfg1, h1, h2, _⟩ => ⟨cfg1, h1, h2⟩⟩

/-! ### A duplicate click on the inter-block button -/

/-- C16, evaluation at the failing input: with three blocks, at the end of block 0 a single
call of `continueToNextBlock` moves to block 1 and registers one `startTrial` timer; the
inter-block screen is still displayed and no trial of block 1 has started.  A second call at
that moment is not a no-op: it moves to block 2 and registers a second `startTrial` timer.
Run on from there, the experiment reaches the results screen with block results for the
blocks 0 and 2 only: block 1 was skipped. -/
theorem continueToNextBlock_twice_skips_block :
    allEnabled blockZeroTrace
      (confirmConfiguration threeBlocks rngZero 0 initialEngine).engine = true ∧
    blockZeroDoneEngine.trialArea = TrialArea.blockComplete ∧
    blockZeroDoneEngine.state.currentBlock = 0 ∧
    (continueToNextBlock blockZeroDoneEngine).engine.state.currentBlock = 1 ∧
    (continueToNextBlock blockZeroDoneEngine).engine.timers = [Timer.startTrial] ∧
    (continueToNextBlock blockZeroDoneEngine).engine.trialArea = TrialArea.blockComplete ∧
    (continueToNextBlock blockZeroDoneEngine).engine.state.waitingForResponse = false ∧
    (continueToNextBlock
      (continueToNextBlock blockZeroDoneEngine).engine).engine.state.currentBlock = 2 ∧
    (continueToNextBlock (continueToNextBlock blockZeroDoneEngine).engine).engine.timers
      = [Timer.startTrial, Timer.startTrial] ∧
    allEnabled afterDoubleClickTrace
      (continueToNextBlock (continueToNextBlock blockZeroDoneEngine).engine).engine = true ∧
    (applyEvents afterDoubleClickTrace
      (continueToNextBlock
        (continueToNextBlock blockZeroDoneEngine).engine).engine).resultsActive = true ∧
    (applyEvents afterDoubleClickTrace
      (continueToNextBlock
        (continueToNextBlock blockZeroDoneEngine).engine).engine).state.results.blockResults.map
          (fun r => r.block) = [0, 2] ∧
    (applyEvents afterDoubleClickTrace
      (continueToNextBlock
        (continueToNextBlock blockZeroDoneEngine).engine).engine).state.blocks.map
          (fun b => b.results.length) = [2, 0, 2] := by
  decide

/-! ### The denominator of the block accuracy -/

theorem endBlock_inv (e e1 : Engine) (h : endBlock e = Outcome.ok e1) :
    ∃ block, e.state.blocks[e.state.currentBlock]? = some block ∧
      e1.state.blocks = e.state.blocks ∧
      e1.state.results.blockResults
        = e.state.results.blockResults ++ [blockResultOf e.state.currentBlock block] := by
  unfold endBlock at h
  cases hb : e.state.blocks[e.state.currentBlock]? with
  | none => simp [hb] at h
  | some block =>
    simp only [hb, Outcome.ok.injEq] at h
    subst h
    exact ⟨block, rfl, rfl, rfl⟩

theorem runBlocks_full (policy : Engine → Nat) (hpol : ∀ e, 1 ≤ policy e ∧ policy e ≤ 3) :
    ∀ (todo done : List Block) (e : Engine),
      e.state.blocks = done ++ todo →
      (todo ≠ [] → e.timers = [Timer.startTrial] ∧ e.state.currentTrial = 0 ∧
        e.state.currentBlock = done.length) →
      (∀ b ∈ todo, b.results = [] ∧ 0 < b.sequence.length) →
      ∃ e1 finished, runBlocks policy todo.length e = Outcome.ok e1 ∧
        e1.state.blocks = done ++ finished ∧
        List.Forall₂ (fun b f => f.sequence = b.sequence ∧
          f.results.length = b.sequence.length) todo finished ∧
        e1.state.results.blockResults = e.state.results.blockResults ++
          (finished.enumFrom done.length).map (fun p => blockResultOf p.1 p.2)
  | [], done, e, hbl, _, _ => ⟨e, [], rfl, hbl, List.Forall₂.nil, by simp⟩
  | block :: rest, done, e, hbl, hpre, hall => by
      obtain ⟨htimer, hct, hcb⟩ := hpre (by simp)
      obtain ⟨hres, hpos⟩ := hall block (by simp)
      have hb : e.state.blocks[e.state.currentBlock]? = some block := by
        rw [hbl, hcb]
        exact getElem?_append_length done rest block
      obtain ⟨e1, rs, he1, hrl, hd, _⟩ :=
        runBlock_spec policy (fun _ => True) e block
          (fun e1 _ _ _ _ => ⟨(hpol e1).1, (hpol e1).2, trivial⟩) htimer hct hb hpos
      have hbl1 : e1.state.blocks = done ++ { block with results := rs } :: rest := by
        rw [hd.blocks, hbl, hcb, hres, set_append_length]
        rfl
      obtain ⟨e2, he2, hbl2, hr2, hpre2⟩ :=
        continueToNextBlock_spec e1 done rest _ hbl1 (hd.currentBlock.trans hcb) hd.noTimer
      obtain ⟨e3, finished, he3, hbl3, hf, hbr3⟩ :=
        runBlocks_full policy hpol rest (done ++ [{ block with results := rs }]) e2
          (by rw [hbl2, hbl1]; simp)
          (fun h => by simpa using hpre2 h)
          (fun b hb => hall b (List.mem_cons_of_mem _ hb))
      refine ⟨e3, { block with results := rs } :: finished, ?_, by rw [hbl3]; simp,
        List.Forall₂.cons ⟨rfl, hrl⟩ hf, ?_⟩
      · simp only [List.length_cons, runBlocks, he1, Outcome.andThen, he2]
        exact he3
      · rw [hbr3, hr2, hd.blockResults, hcb, hres]
        simp [List.enumFrom_cons, blockResultOf, correctCount]

theorem runExperiment_full (cfg : Config) (rng : Rng) (policy : Engine → Nat)
    (hv : ValidConfig cfg) (hpol : ∀ e, 1 ≤ policy e ∧ policy e ≤ 3) :
    ∃ e, runExperiment cfg rng policy = Outcome.ok e ∧
      List.Forall₂ (fun s f => f.sequence.length = s * cfg.iterationsPerStimulus ∧
        f.results.length = f.sequence.length) cfg.setSizes e.state.blocks ∧
      e.state.results.blockResults
        = (e.state.blocks.enumFrom 0).map (fun p => blockResultOf p.1 p.2) := by
  obtain ⟨hne, hsz, hit⟩ := hv
  obtain ⟨gen, hg, hf⟩ := generateBlocksFrom_spec rng cfg.iterationsPerStimulus cfg.setSizes 0 0 []
  simp only [List.nil_append] at hg
  have hgne : gen ≠ [] := by
    intro h
    have hl := hf.length_eq
    rw [h] at hl
    exact hne (List.length_eq_zero.1 hl)
  obtain ⟨b0, hb0⟩ : ∃ b0, gen[0]? = some b0 := by
    cases gen with
    | nil => exact absurd rfl hgne
    | cons b0 _ => exact ⟨b0, by simp⟩
  have hstart : confirmConfiguration cfg rng 0 initialEngine = Outcome.ok
      { initialEngine with
        gameAreaActive := true,
        state := { initialEngine.state with blocks := gen },
        timers := [Timer.startTrial] } := by
    simp only [confirmConfiguration, generateBlocks, startBlock, initialEngine, hg, hb0]
    rfl
  have hgen : ∀ i (h1 : i < cfg.setSizes.length) (h2 : i < gen.length),
      gen[i].results = [] ∧ gen[i].sequence.length = cfg.setSizes[i] * cfg.iterationsPerStimulus ∧
        0 < gen[i].sequence.length := by
    intro i h1 h2
    have hr := hf.get h1 h2
    simp only [List.get_eq_getElem] at hr
    have hs := hsz _ (List.getElem_mem h1)
    refine ⟨hr.2.1, hr.2.2 hs.2, ?_⟩
    rw [hr.2.2 hs.2]
    exact Nat.mul_pos (by omega) (by omega)
  have hall : ∀ b ∈ gen, b.results = [] ∧ 0 < b.sequence.length := by
    intro b hb
    obtain ⟨i, hi⟩ := List.mem_iff_getElem?.1 hb
    rw [List.getElem?_eq_some_iff] at hi
    obtain ⟨hlt, hi⟩ := hi
    have := hgen i (hf.length_eq ▸ hlt) hlt
    rw [hi] at this
    exact ⟨this.1, this.2.2⟩
  obtain ⟨e1, finished, he1, hbl, hff, hbr⟩ :=
    runBlocks_full policy hpol gen []
      { initialEngine with
        gameAreaActive := true,
        state := { initialEngine.state with blocks := gen },
        timers := [Timer.startTrial] } rfl (fun _ => ⟨rfl, rfl, rfl⟩) hall
  have hlen : cfg.setSizes.length = gen.length := hf.length_eq
  simp only [List.nil_append] at hbl
  refine ⟨e1, ?_, ?_, ?_⟩
  · simp only [runExperiment, hstart, Outcome.andThen, hlen]
    exact he1
  · rw [hbl]
    rw [List.forall₂_iff_get] at hff ⊢
    refine ⟨hlen.trans hff.1, fun i h1 h2 => ?_⟩
    have hg1 : i < gen.length := hlen ▸ h1
    have ha := hgen i h1 hg1
    have hb := hff.2 i hg1 h2
    simp only [List.get_eq_getElem] at hb ⊢
    exact ⟨by rw [hb.1, ha.2.1], by rw [hb.2, hb.1]⟩
  · rw [hbl]
    simpa [initialEngine] using hbr

/-- C17: for a valid configuration, in the experiment run in the normal order (each trial
answered once with an action 1, 2 or 3, then the feedback continuation; any draws) there is
one block result per configured block, and the block result that `endBlock` pushed for
block `b` is computed from a block whose `results.length` equals its `sequence.length` and
is at least 1: its `trials` is that length and its accuracy is the finite double nearest to
the quotient `correct / trials` (its product with `trials` is within `correct / 2^53` of
`correct`), never the `NaN` of a zero denominator. -/
theorem endBlock_denominator_positive (cfg : Config) (rng : Rng) (policy : Engine → Nat)
    (hv : ValidConfig cfg) (hpol : ∀ e, 1 ≤ policy e ∧ policy e ≤ 3) :
    ∃ e, runExperiment cfg rng policy = Outcome.ok e ∧
      e.state.blocks.length = cfg.setSizes.length ∧
      e.state.results.blockResults.length = cfg.setSizes.length ∧
      ∀ (b : Nat) (block : Block), e.state.blocks[b]? = some block →
        block.results.length = block.sequence.length ∧ 1 ≤ block.results.length ∧
        e.state.results.blockResults[b]? = some (blockResultOf b block) ∧
        (blockResultOf b block).trials = block.sequence.length ∧
        (blockResultOf b block).accuracy
          = JSNum.fin (doubleQuotient (correctCount block.results) block.results.length) ∧
        |doubleQuotient (correctCount block.results) block.results.length
              * (block.results.length : ℚ) - (correctCount block.results : ℚ)|
          ≤ (correctCount block.results : ℚ) / 2 ^ 53 ∧
        (blockResultOf b block).accuracy ≠ JSNum.nan := by
  obtain ⟨e, he, hf, hbr⟩ := runExperiment_full cfg rng policy hv hpol
  obtain ⟨hne, hsz, hit⟩ := hv
  refine ⟨e, he, hf.length_eq.symm, by rw [hbr]; simp [hf.length_eq], fun b block hb => ?_⟩
  rw [List.getElem?_eq_some_iff] at hb
  obtain ⟨hlt, hb⟩ := hb
  have hs : b < cfg.setSizes.length := hf.length_eq ▸ hlt
  have hr := hf.get hs hlt
  simp only [List.get_eq_getElem, hb] at hr
  have hsize := hsz _ (List.getElem_mem hs)
  have hpos : 1 ≤ block.results.length := by
    rw [hr.2, hr.1]
    exact Nat.mul_pos (by omega) (by omega)
  have hacc := (weightedAccuracy_blockResultOf b block hpos).2
  refine ⟨hr.2, hpos, ?_, hr.2, hacc, doubleQuotient_error _ _ hpos (correctCount_le _),
    by rw [hacc]; exact fun h => JSNum.noConfusion h⟩
  rw [hbr]
  simp [List.getElem?_enumFrom, List.getElem?_eq_getElem hlt, hb]

theorem endBlock_denominator_positive_witness :
    ValidConfig ⟨[2, 3], 2⟩ ∧
    ∃ e, runExperiment ⟨[2, 3], 2⟩ rngMiddleRepeat (fun _ => 2) = Outcome.ok e ∧
      e.state.results.blockResults.length = 2 :=
  ⟨by decide,
    match endBlock_denominator_positive ⟨[2, 3], 2⟩ rngMiddleRepeat (fun _ => 2) (by decide)
      (fun _ => ⟨by simp, by simp⟩) with
    | ⟨e, h, _, h2, _⟩ => ⟨e, h, h2⟩⟩

end RLWM
